import Mathlib

/-!
# Verification of the bytebits bit-field engine

This file is a shallow embedding, in Lean 4, of the bytebits Go package:
bit-field extraction and insertion on byte slices, 64-bit word get/put
primitives, whole-buffer rotation, leading/trailing zero counts, whole-buffer
boolean algebra, and the big-endian field cursor.

Byte slices are modelled as `List Nat` whose entries are intended to be
bytes (`< 256`); machine arithmetic is modelled on `Nat`/`Int` with explicit
`% 256` (resp. `% 2^64`) at the points where Go's fixed-width arithmetic
truncates.  Code that can fault (slice indexing or slicing out of range,
explicit panics, integer division by zero) is modelled in `Option`, with
`none` standing for the fault.
-/

/-- A list models a byte slice when every entry is an actual byte value. -/
def bytesOK (b : List Nat) : Prop := ∀ v ∈ b, v < 256

instance bytesOK.dec (b : List Nat) : Decidable (bytesOK b) := by
  unfold bytesOK; infer_instance

/-- The bit of buffer `B` at absolute big-endian bit position `i`:
bit 0 is the most-significant bit of byte 0. -/
def bitAt (B : List Nat) (i : Nat) : Bool :=
  Nat.testBit (B.getD (i / 8) 0) (7 - i % 8)

/-- Go left shift on a `byte`: the result is truncated to 8 bits. -/
def shl8 (a n : Nat) : Nat := (a <<< n) % 256

/-- Go `a &^ m` (AND NOT) on `byte` operands, for `m < 256`. -/
def andNot8 (a m : Nat) : Nat := a &&& (m ^^^ 255)

/-- Go `a &^ m` (AND NOT) on `uint64` operands. -/
def andNot64 (a m : Nat) : Nat := a &&& (m ^^^ (2 ^ 64 - 1))

/-- Go slice expression `b[k:]`: faults when `k` exceeds the length. -/
def goSlice (b : List Nat) (k : Nat) : Option (List Nat) :=
  if k ≤ b.length then some (b.drop k) else none

/-- The package-level `zeroByte` sentinel: a single zero byte. -/
def zeroByte : List Nat := [0]

/-- Translation of `mk` from be.go: returns `dst` if it is at least `l` bytes, otherwise a
fresh (zero) slice of length `l`. -/
def mk (dst : List Nat) (l : Nat) : List Nat :=
  if dst.length < l then List.replicate l 0 else dst

/-- Translation of `Grow` from bits.go: grows `z` to length at least `l`, preserving content.
(The capacity fast path returns a slice over fresh zeroed storage in the
contexts modelled here, so extension bytes are zero.) -/
def Grow (z : List Nat) (l : Nat) : List Nat :=
  if l ≤ z.length then z else z ++ List.replicate (l - z.length) 0

/-!
## extract2 (be.go lines 43-84)

`extract2(z, x, y, ofs)` extracts a bit-field the size of slice `z` from the
logical concatenation of `x` and `y` starting at bit `ofs`.  In Go the
destination is written in place; here the written destination is returned.
In the non-byte-aligned branch every index `i < len z` is written exactly
once (by the first loop, the boundary-crossing step, or the second loop,
according to `i`'s position relative to the effective `xlen`), so the branch
is modelled by computing each destination byte from its index; reads out of
range give `none` exactly where Go indexing would panic.
-/

/-- The byte written at destination index `i` by the non-aligned branch of
`extract2`, with `xl` the effective `xlen` after the `l < xlen` truncation. -/
def e2val (x y : List Nat) (xl obits i : Nat) : Option Nat :=
  if i < xl - 1 then
    -- first loop: both source bytes within x
    match x[i]?, x[i+1]? with
    | some a, some b => some (shl8 a obits ||| b >>> (8 - obits))
    | _, _ => none
  else if i = xl - 1 then
    -- boundary crossing from x to y (also the i = 0 step when xl = 0)
    match x[i]?, y[0]? with
    | some a, some b => some (shl8 a obits ||| b >>> (8 - obits))
    | _, _ => none
  else
    -- second loop: both source bytes within y
    match y[i - xl]?, y[i + 1 - xl]? with
    | some a, some b => some (shl8 a obits ||| b >>> (8 - obits))
    | _, _ => none

/-- Destination bytes for `rem` indices starting at `i` of the non-aligned
branch of `extract2`; `rem` counts the remaining loop iterations. -/
def e2buildAux (x y : List Nat) (xl obits : Nat) : Nat → Nat → Option (List Nat)
  | _, 0 => some []
  | i, rem+1 =>
    match e2val x y xl obits i, e2buildAux x y xl obits (i+1) rem with
    | some v, some r => some (v :: r)
    | _, _ => none

/-- Destination bytes for indices `i, i+1, ..., l-1` of the non-aligned
branch of `extract2`. -/
def e2build (x y : List Nat) (xl obits i l : Nat) : Option (List Nat) :=
  e2buildAux x y xl obits i (l - i)

/-- The body of `extract2` after the source-skipping step, acting on the
already-skipped sources `x` and `y`; `l` is the destination length. -/
def extract2Core (l : Nat) (x y : List Nat) (obits : Nat) : Option (List Nat) :=
  if obits = 0 then
    -- special case of extraction on byte boundary
    if l ≤ x.length then some (x.take l)
    else if l ≤ x.length + y.length then some (x ++ y.take (l - x.length))
    else none
  else
    e2build x y (if l < x.length then l + 1 else x.length) obits 0 l

/-- Translation of `extract2` from be.go.  `none` models a Go panic
(explicit, or from an out-of-range index or slice expression). -/
def extract2 (z x y : List Nat) (ofs : Nat) : Option (List Nat) :=
  let l := z.length
  let obits := ofs % 8
  let obytes := ofs / 8
  -- Skip any prefix bytes we don't need from x and possibly y
  if obytes < x.length then extract2Core l (x.drop obytes) y obits
  else (goSlice y (obytes - x.length)).bind (fun x' => extract2Core l x' [] obits)

/-- Type `Align` indicates Left or Right bit-field alignment. -/
inductive Align where
  | Left : Align
  | Right : Align
deriving DecidableEq

/-- Translation of `BigEndianBits.Bits` from be.go (lines 92-133): extracts a `bits`-wide
field at bit `ofs` of `src` into `dst`, `Left` or `Right` aligned. -/
def BigEndianBits.Bits (dst src : List Nat) (ofs bits : Nat) (dstAlign : Align) :
    Option (List Nat) :=
  let l := (bits + 7) >>> 3
  let lbits := bits &&& 7
  let dst := mk dst l
  match dstAlign with
  | Align.Left =>
    (extract2 (dst.take l) src zeroByte ofs).map (fun f =>
      let f := if lbits ≠ 0 then f.set (l-1) (f.getD (l-1) 0 &&& ((0xff00 >>> lbits) % 256))
               else f
      -- the tail-zeroing loop: for ; l < len(dst); l++ { dst[l] = 0 }
      f ++ List.replicate (dst.length - l) 0)
  | Align.Right =>
    let pad := dst.length - l
    if lbits = 0 then
      (extract2 (dst.drop pad) src [] ofs).map (fun f => List.replicate pad 0 ++ f)
    else
      (extract2 (dst.drop pad) zeroByte src (lbits + ofs)).map (fun f =>
        List.replicate pad 0 ++ f.set 0 (f.getD 0 0 &&& (0xff >>> (8 - lbits))))

/-- Translation of `BigEndianOrder.Bits` from the draft facade (part_005, lines 115-159):
left-aligned extraction only; the right-aligned branch is dead code
(`if false`).  Uses `Grow` for the destination. -/
def BigEndianOrder.Bits (dst src : List Nat) (ofs bits : Nat) : Option (List Nat) :=
  let l := (bits + 7) >>> 3
  let lbits := bits &&& 7
  let dst := Grow dst l
  (extract2 (dst.take l) src zeroByte ofs).map (fun f =>
    let f := if lbits ≠ 0 then f.set (l-1) (f.getD (l-1) 0 &&& ((0xff00 >>> lbits) % 256))
             else f
    f ++ List.replicate (dst.length - l) 0)

/-- Translation of `BigEndianOrder.SetBits` from part_005 (lines 214-262).  The handling of
the complete middle bytes and of the final partial byte of a non-aligned
multi-byte field is missing in the source (empty loop bodies); the
translation reproduces exactly what the source writes. -/
def BigEndianOrder.SetBits (z x : List Nat) (ofs bits : Nat) : Option (List Nat) :=
  let z := Grow z ((ofs + bits + 7) >>> 3)
  if bits = 0 then some z
  else
    let obytes := ofs >>> 3
    let obits := ofs &&& 7
    let lbytes := bits >>> 3
    let ebytes := (ofs + bits) >>> 3
    let ebits := (ofs + bits) &&& 7
    if ebytes = obytes then
      -- start and end of the bit-field in the same byte
      let mask := (0xff >>> obits) &&& shl8 0xff (8 - ebits)
      match z[obytes]?, x[0]? with
      | some zb, some x0 =>
          some (z.set obytes (andNot8 zb mask ||| ((x0 >>> obits) &&& mask)))
      | _, _ => none
    else if obits = 0 then
      -- the bit field happens to be byte-aligned
      if lbytes ≤ x.length then
        let z1 := z.take obytes ++ (x.take lbytes).take (z.length - obytes)
                    ++ z.drop (obytes + lbytes)
        if 0 < ebits then
          let mask := 0xff >>> ebits
          match z1[obytes + lbytes]?, x[lbytes]? with
          | some zb, some xl =>
              some (z1.set (obytes + lbytes) ((zb &&& mask) ||| andNot8 xl mask))
          | _, _ => none
        else some z1
      else none
    else
      -- first partial byte of the bit field; the complete middle bytes and
      -- the final partial byte are not handled by the source
      match z[obytes]?, x[0]? with
      | some zb, some x0 =>
          some (z.set obytes (andNot8 zb (0xff >>> obits) ||| (x0 >>> obits)))
      | _, _ => none

/-!
## Word get/put primitives (part_005, second document)

Go's word primitives advance the slice they operate on; the `put` functions
mutate the underlying array.  Here each `put` returns the *whole* modified
list (from the byte the call started at), together with the data Go returns;
the slice advancement (`b[8:]`, `b[1:]`) is recorded by the callers through
explicit `drop`s of the returned list.
-/

/-- Translation of `beNorm` from part_005: normalize a slice and bit offset so the offset
is 0-7.  The slice expression faults when `o >>> 3` exceeds the length. -/
def beNorm (b : List Nat) (o : Nat) : Option (List Nat × Nat) :=
  (goSlice b (o >>> 3)).map (fun b' => (b', o &&& 7))

/-- Translation of `beGet64` from part_005: get the next 64 bits of `b` at bit offset
`o` (0-7).  Returns the advanced slice, the offset, and the bits. -/
def beGet64 (b : List Nat) (o : Nat) : Option (List Nat × Nat × Nat) :=
  match b with
  | b0 :: b1 :: b2 :: b3 :: b4 :: b5 :: b6 :: b7 :: rest =>
    let v := b0 <<< 56 ||| b1 <<< 48 ||| b2 <<< 40 ||| b3 <<< 32 |||
             b4 <<< 24 ||| b5 <<< 16 ||| b6 <<< 8 ||| b7
    if o = 0 then some (rest, o, v)
    else
      -- not byte-aligned: also touches the 9th byte
      match rest[0]? with
      | some b8 => some (rest, o, ((v <<< o) % 2 ^ 64) ||| b8 >>> (8 - o))
      | none => none
  | _ => none

/-- The bit-at-a-time loop of `beGet` (part_005), accumulating into `v`.
The loop's precondition is `o ≤ 7`; on `o = 8` the Go loop would not
terminate and on `o > 8` it would panic on a negative shift count, so both
are modelled as a fault. -/
def beGetLoop : List Nat → Nat → Nat → Nat → Option (List Nat × Nat × Nat)
  | b, o, n, v =>
  if 8 ≤ o then none
  else if n = 0 then some (b, o, v)
  else if o = 0 then
    if 8 ≤ n then
      match b with
      | b0 :: rest => beGetLoop rest 0 (n - 8) (((v <<< 8) % 2 ^ 64) ||| b0)
      | [] => none
    else
      match b with
      | b0 :: _ => some (b, n, ((v <<< n) % 2 ^ 64) ||| b0 >>> (8 - n))
      | [] => none
  else
    let r := 8 - o
    if r ≤ n then
      match b with
      | b0 :: rest =>
          beGetLoop rest 0 (n - r) (((v <<< r) % 2 ^ 64) ||| andNot64 b0 (255 <<< r))
      | [] => none
    else
      match b with
      | b0 :: _ =>
          some (b, o + n, ((v <<< n) % 2 ^ 64) ||| andNot64 (b0 >>> (r - n)) (255 <<< n))
      | [] => none
termination_by structural b _ _ _ => b

/-- Translation of `beGet` from part_005: get `n` (at most 64) bits of `b` at offset `o`. -/
def beGet (b : List Nat) (o n : Nat) : Option (List Nat × Nat × Nat) :=
  if 64 ≤ n then beGet64 b o
  else beGetLoop b o n 0

/-- Translation of `bePut64` from part_005: put 64 bits into `b` at offset `o` (0-7).
Returns the whole modified list; Go returns `(b[8:], o)`. -/
def bePut64 (b : List Nat) (o : Nat) (v : Nat) : Option (List Nat) :=
  if o = 0 then
    match b with
    | _ :: _ :: _ :: _ :: _ :: _ :: _ :: _ :: rest =>
      some ((v >>> 56) % 256 :: (v >>> 48) % 256 :: (v >>> 40) % 256 :: (v >>> 32) % 256 ::
            (v >>> 24) % 256 :: (v >>> 16) % 256 :: (v >>> 8) % 256 :: v % 256 :: rest)
    | _ => none
  else
    -- not byte-aligned: touches 9 bytes total
    let r := 8 - o
    match b with
    | b0 :: _ :: _ :: _ :: _ :: _ :: _ :: _ :: b8 :: rest =>
      let w := (v <<< r) % 2 ^ 64
      some ((andNot8 b0 (255 >>> o) ||| (v >>> (56 + o)) % 256) ::
            (w >>> 56) % 256 :: (w >>> 48) % 256 :: (w >>> 40) % 256 :: (w >>> 32) % 256 ::
            (w >>> 24) % 256 :: (w >>> 16) % 256 :: (w >>> 8) % 256 ::
            (w % 256 ||| (b8 &&& (255 >>> o))) :: rest)
    | _ => none

/-- The bit-at-a-time loop of `bePut` (part_005).  Returns the whole
modified list and the final bit offset; Go additionally advances the slice
by the number of complete bytes written.  As with `beGetLoop`, `o ≥ 8`
(outside the loop's precondition) is modelled as a fault. -/
def bePutLoop : List Nat → Nat → Nat → Nat → Option (List Nat × Nat)
  | b, o, n, v =>
  if 8 ≤ o then none
  else if n = 0 then some (b, o)
  else if o = 0 then
    if 8 ≤ n then
      match b with
      | _ :: rest =>
          (bePutLoop rest 0 (n - 8) v).map (fun p => ((v >>> (n - 8)) % 256 :: p.1, p.2))
      | [] => none
    else
      match b with
      | b0 :: rest => some ((shl8 v (8 - n) ||| (b0 &&& (255 >>> n))) :: rest, n)
      | [] => none
  else
    let r := 8 - o
    if r ≤ n then
      let m := 255 >>> o
      match b with
      | b0 :: rest =>
          (bePutLoop rest 0 (n - r) v).map (fun p =>
            ((andNot8 b0 m ||| (((v >>> (n - r)) % 256) &&& m)) :: p.1, p.2))
      | [] => none
    else
      let m := (255 >>> o) &&& shl8 255 (r - n)
      match b with
      | b0 :: rest => some ((andNot8 b0 m ||| (shl8 v (r - n) &&& m)) :: rest, o + n)
      | [] => none
termination_by structural b _ _ _ => b

/-- Translation of `bePut` from part_005: put `n` (at most 64) bits into `b` at offset `o`.
Returns the whole modified list and the final bit offset. -/
def bePut (b : List Nat) (o n : Nat) (v : Nat) : Option (List Nat × Nat) :=
  if 64 ≤ n then (bePut64 b o v).map (fun r => (r, o))
  else bePutLoop b o n v

/-- The loop of `beCopy` (part_005), structurally recursing on the
remaining number `k = w / 64` of full 64-bit chunks (the Go loop runs
while `64 ≤ w`, which holds exactly while `k > 0`). -/
def beCopyAux (zb xb : List Nat) (zo xo w : Nat) :
    Nat → Option (List Nat × Nat × Nat × List Nat × Nat)
  | 0 =>
    (beGet xb xo w).bind (fun g =>
      (bePut zb zo w g.2.2).map (fun p =>
        -- the final bePut advances the destination by its complete bytes
        (p.1, (zo + w) / 8, p.2, g.1, g.2.1)))
  | k+1 =>
    (beGet64 xb xo).bind (fun g =>
      (bePut64 zb zo g.2.2).bind (fun z1 =>
        (beCopyAux (z1.drop 8) g.1 zo g.2.1 (w - 64) k).map (fun c =>
          (z1.take 8 ++ c.1, 8 + c.2.1, c.2.2.1, c.2.2.2))))

/-- Translation of `beCopy` from part_005: copy `w` bits from `xb` at
offset `xo` into `zb` at offset `zo`, a 64-bit word at a time.  Returns the
whole modified destination, the number of destination bytes Go's slice
advancement skips, the final destination offset, and the advanced source
slice and offset. -/
def beCopy (zb xb : List Nat) (zo xo w : Nat) :
    Option (List Nat × Nat × Nat × List Nat × Nat) :=
  beCopyAux zb xb zo xo w (w / 64)

/-!
## Rotations
-/

/-- The descending carry loop shared by the small left rotation branches of
`BigEndianBits.RotateLeft` and `BigEndianOrder.RotateLeft`:
`c := src[0] >> (8-n); for i := l-1; i >= 0; i-- { v := src[i];
dst[i] = (v << n) | c; c = v >> (8-n) }`.
`rotlLoop src n i c` is the destination prefix for positions `0..i`, where
`c` is the carry available when position `i` is written. -/
def rotlLoop (src : List Nat) (n : Nat) : Nat → Nat → List Nat
  | 0, c => [shl8 (src.getD 0 0) n ||| c]
  | i+1, c => rotlLoop src n i (src.getD (i+1) 0 >>> (8 - n)) ++
              [shl8 (src.getD (i+1) 0) n ||| c]

/-- The ascending carry loop shared by the small right rotation branches:
`c := src[l-1] << (8-n); for i := 0; i < l; i++ { v := src[i];
dst[i] = (v >> n) | c; c = v << (8-n) }`.
`fuel` is the number of remaining iterations. -/
def rotrLoop (src : List Nat) (n : Nat) : Nat → Nat → Nat → List Nat
  | _, _, 0 => []
  | i, c, fuel+1 =>
      (src.getD i 0 >>> n ||| c) :: rotrLoop src n (i+1) (shl8 (src.getD i 0) (8 - n)) fuel

/-- Translation of `BigEndianBits.RotateLeft` from be.go (lines 177-214): whole-buffer
rotation, reducing large rotations to one `extract2` call on the
self-concatenated source. -/
def BigEndianBits.RotateLeft (dst src : List Nat) (n : Int) : Option (List Nat) :=
  let l := src.length
  if l = 0 then some dst  -- nothing to rotate
  else
    let dst := mk dst l
    let n := if n < -8 then (8 * l : Int) + Int.tmod n (8 * l) else n
    if 8 < n then
      -- large left rotate
      let m := n.toNat
      (extract2 (dst.take l) (src.drop ((m >>> 3) % l)) src (m &&& 7)).map
        (fun r => r ++ dst.drop l)
    else if n = 0 then some (src ++ dst.drop l)
    else if 0 < n then
      -- small left rotate
      let m := n.toNat
      some (rotlLoop src m (l - 1) (src.getD 0 0 >>> (8 - m)) ++ dst.drop l)
    else if -8 ≤ n then
      -- small right rotate
      let m := (-n).toNat
      some (rotrLoop src m 0 (shl8 (src.getD (l - 1) 0) (8 - m)) l ++ dst.drop l)
    else some dst  -- unreachable: after the adjustment n is at least -8

/-- Translation of `BigEndianOrder.RotateLeft` from part_005 (lines 647-695): whole-buffer
rotation, reducing large rotations to two word-at-a-time `beCopy` passes. -/
def BigEndianOrder.RotateLeft (z x : List Nat) (rot : Int) : Option (List Nat) :=
  let l := x.length
  let z := Grow z l
  if rot = 0 ∨ l = 0 then some (x ++ z.drop l)  -- copy(z, x)
  else if 0 < rot ∧ rot ≤ 8 then
    let m := rot.toNat
    some (rotlLoop x m (l - 1) (x.getD 0 0 >>> (8 - m)) ++ z.drop l)
  else if rot < 0 ∧ -8 ≤ rot then
    let m := (-rot).toNat
    some (rotrLoop x m 0 (shl8 (x.getD (l - 1) 0) (8 - m)) l ++ z.drop l)
  else
    let w := 8 * l
    let r0 := Int.tmod rot w
    let rotN := (if r0 < 0 then r0 + w else r0).toNat
    (beNorm x rotN).bind (fun p =>
      (beCopy z p.1 0 p.2 (w - rotN)).bind (fun c1 =>
        (beCopy (c1.1.drop c1.2.1) x c1.2.2.1 0 rotN).map (fun c2 =>
          c1.1.take c1.2.1 ++ c2.1)))

/-!
## The big-endian field cursor (part_004, third document)
-/

/-- A `BigEndianField`: a bit-field view on a byte slice, with a sub-byte
bit offset `o` (0-7) and a width `w` in bits. -/
structure BigEndianField where
  b : List Nat
  o : Nat
  w : Nat
deriving DecidableEq, Repr

/-- The outcome of `ReadBits`: success carrying the bits read and the
shrunk cursor, or the end-of-field (`EOF`) result carrying the cursor,
which the source leaves untouched on that path. -/
inductive ReadBitsResult where
  | ok : Nat → BigEndianField → ReadBitsResult
  | eof : BigEndianField → ReadBitsResult
deriving DecidableEq, Repr

/-- Translation of `BigEndianField.ReadBits` from part_004 (lines 155-165): reads up to
`n` bits (64 maximum) from the front of the field.  `n` is clamped to 64
*before* the end-of-field test. -/
def BigEndianField.ReadBits (z : BigEndianField) (n : Nat) : Option ReadBitsResult :=
  let n := if 64 < n then 64 else n
  if z.w < n then some (ReadBitsResult.eof z)
  else (beGet z.b z.o n).map (fun g => ReadBitsResult.ok g.2.2 ⟨g.1, g.2.1, z.w - n⟩)

/-- Translation of `BigEndianField.RotateLeft` from part_004 (lines 277-293): field-scoped
rotation.  The first statement computes `rot % w` on Go ints, which panics
with a division by zero when the destination field's width `w` is zero;
the guard on `w` below models exactly that fault. -/
def BigEndianField.RotateLeft (z x : BigEndianField) (rot : Int) :
    Option BigEndianField :=
  (if (z.w : Int) = 0 then none else some (Int.tmod rot z.w)).bind (fun r0 =>
    let rotN := (if r0 < 0 then r0 + z.w else r0).toNat
    (beNorm x.b (x.o + rotN)).bind (fun p =>
      (beCopy z.b p.1 z.o p.2 (z.w - rotN)).bind (fun c1 =>
        (beCopy (c1.1.drop c1.2.1) x.b c1.2.2.1 x.o rotN).map (fun c2 =>
          ⟨c1.1.take c1.2.1 ++ c2.1, z.o, z.w⟩))))

/-!
## Whole-buffer boolean algebra and zero counts
-/

/-- Translation of `And` from bits.go: byte-wise AND of equal-length slices into `z`.
`none` models the `len2` panic on mismatched source lengths. -/
def bytebits.And (z x y : List Nat) : Option (List Nat) :=
  if y.length = x.length then
    let z := Grow z x.length
    some (List.zipWith (fun a b => a &&& b) x y ++ z.drop x.length)
  else none

/-- Translation of `AndNot` from bits.go: byte-wise `x &^ y`. -/
def bytebits.AndNot (z x y : List Nat) : Option (List Nat) :=
  if y.length = x.length then
    let z := Grow z x.length
    some (List.zipWith (fun a b => andNot8 a b) x y ++ z.drop x.length)
  else none

/-- Translation of `Or` from bits.go. -/
def bytebits.Or (z x y : List Nat) : Option (List Nat) :=
  if y.length = x.length then
    let z := Grow z x.length
    some (List.zipWith (fun a b => a ||| b) x y ++ z.drop x.length)
  else none

/-- Translation of `Xor` from bits.go. -/
def bytebits.Xor (z x y : List Nat) : Option (List Nat) :=
  if y.length = x.length then
    let z := Grow z x.length
    some (List.zipWith (fun a b => a ^^^ b) x y ++ z.drop x.length)
  else none

/-- Translation of `Not` from bits.go: byte-wise complement (`^v` on a Go byte is
`v ^^^ 255`). -/
def bytebits.Not (z x : List Nat) : List Nat :=
  x.map (fun a => a ^^^ 255) ++ (Grow z x.length).drop x.length

/-- Leading-zero count among the top `fuel` bits of an 8-bit value. -/
def lz8Aux : Nat → Nat → Nat
  | 0, _ => 0
  | f+1, v => if v.testBit f then 0 else 1 + lz8Aux f v

/-- Go `math/bits.LeadingZeros8`: the number of leading zero bits in an
8-bit value (8 for value 0). -/
def leadingZeros8 (v : Nat) : Nat := lz8Aux 8 v

/-- Fuel-indexed trailing-zero count of a fixed-width value. -/
def tzAux : Nat → Nat → Nat
  | 0, _ => 0
  | f+1, v => if v % 2 = 1 then 0 else 1 + tzAux f (v / 2)

/-- Go `math/bits.TrailingZeros8` (8 for value 0). -/
def trailingZeros8 (v : Nat) : Nat := tzAux 8 v

/-- Translation of `BigEndianBits.LeadingZeros` from be.go (lines 224-232). -/
def BigEndianBits.LeadingZeros : List Nat → Nat
  | [] => 0
  | v :: rest => if v ≠ 0 then leadingZeros8 v else 8 + BigEndianBits.LeadingZeros rest

/-- The backwards loop of `BigEndianBits.TrailingZeros`, expressed as a
recursion on the reversed slice. -/
def trailingAux : List Nat → Nat
  | [] => 0
  | v :: rest => if v ≠ 0 then trailingZeros8 v else 8 + trailingAux rest

/-- Translation of `BigEndianBits.TrailingZeros` from be.go (lines 234-243). -/
def BigEndianBits.TrailingZeros (src : List Nat) : Nat := trailingAux src.reverse

/-!
## Byte-level toolkit
-/

theorem two_pow_eight : (2 : Nat) ^ 8 = 256 := by norm_num

theorem byte_ext {a b : Nat} (ha : a < 256) (hb : b < 256)
    (h : ∀ j, j < 8 → a.testBit j = b.testBit j) : a = b := by
  apply Nat.eq_of_testBit_eq
  intro i
  by_cases hi : i < 8
  · exact h i hi
  · have h2 : (256 : Nat) ≤ 2 ^ i := by
      calc (256 : Nat) = 2 ^ 8 := two_pow_eight.symm
        _ ≤ 2 ^ i := Nat.pow_le_pow_right (by norm_num) (by omega)
    rw [Nat.testBit_lt_two_pow (by omega), Nat.testBit_lt_two_pow (by omega)]

theorem lt256_or {a b : Nat} (ha : a < 256) (hb : b < 256) : a ||| b < 256 := by
  have h := Nat.or_lt_two_pow (x := a) (y := b) (n := 8)
  rw [two_pow_eight] at h
  exact h ha hb

theorem lt256_and_right (a : Nat) {b : Nat} (hb : b < 256) : a &&& b < 256 := by
  have h := Nat.and_lt_two_pow (n := 8) a (y := b)
  rw [two_pow_eight] at h
  exact h hb

theorem lt256_and_left {a : Nat} (b : Nat) (ha : a < 256) : a &&& b < 256 := by
  rw [Nat.and_comm]
  exact lt256_and_right b ha

theorem shl8_lt (a n : Nat) : shl8 a n < 256 := by
  unfold shl8
  exact Nat.mod_lt _ (by norm_num)

theorem shr_lt256 {a : Nat} (n : Nat) (ha : a < 256) : a >>> n < 256 := by
  rw [Nat.shiftRight_eq_div_pow]
  exact Nat.lt_of_le_of_lt (Nat.div_le_self _ _) ha

theorem andNot8_lt {a : Nat} (m : Nat) (ha : a < 256) : andNot8 a m < 256 :=
  lt256_and_left _ ha

theorem testBit_255 (j : Nat) : Nat.testBit 255 j = decide (j < 8) := by
  rw [show (255 : Nat) = 2 ^ 8 - 1 from rfl, Nat.testBit_two_pow_sub_one]

theorem testBit_mod256 (x j : Nat) :
    (x % 256).testBit j = (decide (j < 8) && x.testBit j) := by
  rw [← two_pow_eight, Nat.testBit_mod_two_pow]

theorem testBit_shl8 (a n j : Nat) :
    (shl8 a n).testBit j = (decide (j < 8) && (decide (n ≤ j) && a.testBit (j - n))) := by
  unfold shl8
  rw [testBit_mod256, Nat.testBit_shiftLeft]

theorem testBit_andNot8 {a m : Nat} (j : Nat) (hj : j < 8) :
    (andNot8 a m).testBit j = (a.testBit j && !(m.testBit j)) := by
  unfold andNot8
  rw [Nat.testBit_and, Nat.testBit_xor, testBit_255]
  simp [hj]

theorem testBit_merge8 {zb vb m : Nat} (j : Nat) (hj : j < 8) :
    (andNot8 zb m ||| (vb &&& m)).testBit j =
      (if m.testBit j then vb.testBit j else zb.testBit j) := by
  rw [Nat.testBit_or, Nat.testBit_and, testBit_andNot8 j hj]
  cases m.testBit j <;> simp

theorem bitAt_byte (B : List Nat) (k t : Nat) (ht : t < 8) :
    bitAt B (8 * k + t) = (B.getD k 0).testBit (7 - t) := by
  unfold bitAt
  have h1 : (8 * k + t) / 8 = k := by omega
  have h2 : (8 * k + t) % 8 = t := by omega
  rw [h1, h2]

theorem bitAt_append_left {x : List Nat} (y : List Nat) {i : Nat}
    (h : i < 8 * x.length) : bitAt (x ++ y) i = bitAt x i := by
  unfold bitAt
  have h1 : i / 8 < x.length := by omega
  rw [List.getD_eq_getElem?_getD, List.getD_eq_getElem?_getD,
    List.getElem?_append_left h1]

theorem bytesOK_getD {B : List Nat} (h : bytesOK B) (k : Nat) : B.getD k 0 < 256 := by
  rcases Nat.lt_or_ge k B.length with hk | hk
  · rw [List.getD_eq_getElem?_getD, List.getElem?_eq_getElem hk]
    exact h _ (List.getElem_mem hk)
  · rw [List.getD_eq_default _ _ hk]
    norm_num

theorem buffer_ext {a b : List Nat} (ha : bytesOK a) (hb : bytesOK b)
    (hlen : a.length = b.length)
    (h : ∀ t, t < 8 * a.length → bitAt a t = bitAt b t) : a = b := by
  apply List.ext_getElem hlen
  intro k hk hk2
  have hbyte : ∀ j, j < 8 → (a.getD k 0).testBit j = (b.getD k 0).testBit j := by
    intro j hj
    have ht := h (8 * k + (7 - j)) (by omega)
    rw [bitAt_byte _ _ _ (by omega), bitAt_byte _ _ _ (by omega)] at ht
    have h7 : 7 - (7 - j) = j := by omega
    rwa [h7] at ht
  have := byte_ext (bytesOK_getD ha k) (bytesOK_getD hb k) hbyte
  rw [List.getD_eq_getElem?_getD, List.getD_eq_getElem?_getD] at this
  rw [List.getElem?_eq_getElem hk, List.getElem?_eq_getElem hk2] at this
  simpa using this

theorem Grow_of_le {z : List Nat} {l : Nat} (h : l ≤ z.length) : Grow z l = z := by
  unfold Grow
  rw [if_pos h]

theorem append_frame {A : List Nat} (B : List Nat) {n : Nat} (h : A.length = n) :
    (A ++ B).drop n = B := by
  subst h
  simp

/-!
## C3: the concrete 5-bit extraction scenario
-/

/-- C3 counterexample: on buffer `[0b10110100, 0b01101101, 0b11001010]`,
the 5-bit big-endian field at bit offset 14 is `01110` (the two
least-significant bits of the second byte and the three most-significant
bits of the third), so the Left-aligned extraction is not the byte
`0b01011000 = 88` that the claim demands. -/
theorem C3_counterexample :
    BigEndianBits.Bits [] [180, 109, 202] 14 5 Align.Left ≠ some [88] := by decide

/-- C3 (amended): on buffer `[0b10110100, 0b01101101, 0b11001010]`,
extracting the 5-bit big-endian field at bit offset 14 with Left alignment
yields the single byte `0b01110000 = 112` (field bits `01110`, zero-padded
on the right). -/
theorem C3_amended :
    BigEndianBits.Bits [] [180, 109, 202] 14 5 Align.Left = some [112] := by decide

/-!
## C9: field rotation with a zero-width destination faults
-/

/-- C9: for every rotation amount and source field, `RotateLeft` on a
destination field of width zero faults: the unguarded `rot % w` at the top
of the function is an integer division by zero, so the call panics instead
of behaving as a no-op. -/
theorem C9_rotate_zero_width (z x : BigEndianField) (rot : Int) (h : z.w = 0) :
    BigEndianField.RotateLeft z x rot = none := by
  unfold BigEndianField.RotateLeft
  rw [h]
  simp

/-- C9 witness at a concrete zero-width field and rotation amount 5. -/
theorem C9_witness :
    BigEndianField.RotateLeft ⟨[7], 0, 0⟩ ⟨[7], 0, 0⟩ 5 = none :=
  C9_rotate_zero_width ⟨[7], 0, 0⟩ ⟨[7], 0, 0⟩ 5 rfl

/-!
## C10: whole-buffer boolean operations only write the first len(x) bytes
-/

/-- C10: for `And`, `AndNot`, `Or`, `Xor` on equal-length sources `x`, `y`
and for `Not` on source `x`, when the destination `z` is already at least
`len x` bytes long, the result has exactly `z`'s length and every byte at
index `len x` or beyond keeps its prior value (`Grow` returns `z` itself
unchanged in this case, so in Go the returned slice is `z`). -/
theorem C10_bool_frame (z x y : List Nat) (hxy : y.length = x.length)
    (hz : x.length ≤ z.length) :
    (∃ r, bytebits.And z x y = some r ∧ r.length = z.length ∧
      r.drop x.length = z.drop x.length) ∧
    (∃ r, bytebits.AndNot z x y = some r ∧ r.length = z.length ∧
      r.drop x.length = z.drop x.length) ∧
    (∃ r, bytebits.Or z x y = some r ∧ r.length = z.length ∧
      r.drop x.length = z.drop x.length) ∧
    (∃ r, bytebits.Xor z x y = some r ∧ r.length = z.length ∧
      r.drop x.length = z.drop x.length) ∧
    ((bytebits.Not z x).length = z.length ∧
      (bytebits.Not z x).drop x.length = z.drop x.length) := by
  have hzip : ∀ f : Nat → Nat → Nat, (List.zipWith f x y).length = x.length := by
    intro f
    rw [List.length_zipWith, hxy, Nat.min_self]
  have hlen : ∀ f : Nat → Nat → Nat,
      (List.zipWith f x y ++ z.drop x.length).length = z.length := by
    intro f
    rw [List.length_append, hzip, List.length_drop]
    omega
  have hdrop : ∀ f : Nat → Nat → Nat,
      (List.zipWith f x y ++ z.drop x.length).drop x.length = z.drop x.length :=
    fun f => append_frame _ (hzip f)
  have hAnd : bytebits.And z x y =
      some (List.zipWith (fun a b => a &&& b) x y ++ z.drop x.length) := by
    simp [bytebits.And, hxy, Grow_of_le hz]
  have hAndNot : bytebits.AndNot z x y =
      some (List.zipWith (fun a b => andNot8 a b) x y ++ z.drop x.length) := by
    simp [bytebits.AndNot, hxy, Grow_of_le hz]
  have hOr : bytebits.Or z x y =
      some (List.zipWith (fun a b => a ||| b) x y ++ z.drop x.length) := by
    simp [bytebits.Or, hxy, Grow_of_le hz]
  have hXor : bytebits.Xor z x y =
      some (List.zipWith (fun a b => a ^^^ b) x y ++ z.drop x.length) := by
    simp [bytebits.Xor, hxy, Grow_of_le hz]
  have hNot : bytebits.Not z x = x.map (fun a => a ^^^ 255) ++ z.drop x.length := by
    unfold bytebits.Not
    rw [Grow_of_le hz]
  refine ⟨⟨_, hAnd, hlen _, hdrop _⟩, ⟨_, hAndNot, hlen _, hdrop _⟩,
    ⟨_, hOr, hlen _, hdrop _⟩, ⟨_, hXor, hlen _, hdrop _⟩, ?_, ?_⟩
  · rw [hNot, List.length_append, List.length_map, List.length_drop]
    omega
  · rw [hNot]
    exact append_frame _ (by simp)

/-- C10 witness at concrete slices: a 3-byte destination with 2-byte
sources keeps its third byte across all five operations. -/
theorem C10_witness :
    (∃ r, bytebits.And [9, 9, 9] [255, 15] [240, 255] = some r ∧
      r.length = 3 ∧ r.drop 2 = [9]) ∧
    (∃ r, bytebits.Xor [9, 9, 9] [255, 15] [240, 255] = some r ∧
      r.length = 3 ∧ r.drop 2 = [9]) := by
  have h := C10_bool_frame [9, 9, 9] [255, 15] [240, 255] (by decide) (by decide)
  exact ⟨h.1, h.2.2.2.1⟩

/-!
## C5: ReadBits success, advancement, and end-of-field behaviour
-/

theorem beGetLoop_advance : ∀ (b : List Nat) (o n v : Nat), o < 8 →
    o + n ≤ 8 * b.length →
    ∃ w, beGetLoop b o n v = some (b.drop ((o + n) / 8), (o + n) % 8, w) := by
  intro b
  induction b with
  | nil =>
    intro o n v ho hb
    simp at hb
    have ho0 : o = 0 := by omega
    have hn0 : n = 0 := by omega
    subst ho0; subst hn0
    exact ⟨v, by rw [beGetLoop]; simp⟩
  | cons b0 rest ih =>
    intro o n v ho hb
    rw [beGetLoop]
    rw [if_neg (by omega)]
    by_cases hn : n = 0
    · subst hn
      refine ⟨v, ?_⟩
      rw [if_pos rfl]
      have h1 : (o + 0) / 8 = 0 := by omega
      have h2 : (o + 0) % 8 = o := by omega
      rw [h1, h2]
      simp
    · rw [if_neg hn]
      by_cases ho0 : o = 0
      · subst ho0
        by_cases h8 : 8 ≤ n
        · rw [if_pos h8]
          have hb' : 0 + (n - 8) ≤ 8 * rest.length := by
            simp at hb ⊢; omega
          obtain ⟨w, hw⟩ := ih 0 (n - 8) (((v <<< 8) % 2 ^ 64) ||| b0) (by omega) hb'
          refine ⟨w, ?_⟩
          show beGetLoop rest 0 (n - 8) _ = _
          rw [hw]
          have h1 : (0 + n) / 8 = (0 + (n - 8)) / 8 + 1 := by omega
          have h2 : (0 + n) % 8 = (0 + (n - 8)) % 8 := by omega
          rw [h1, h2]
          simp
        · rw [if_neg h8]
          refine ⟨((v <<< n) % 2 ^ 64) ||| b0 >>> (8 - n), ?_⟩
          have h1 : (0 + n) / 8 = 0 := by omega
          have h2 : (0 + n) % 8 = n := by omega
          rw [h1, h2]
          simp
      · rw [if_neg ho0]
        by_cases hr : 8 - o ≤ n
        · rw [if_pos hr]
          have hb' : 0 + (n - (8 - o)) ≤ 8 * rest.length := by
            simp at hb ⊢; omega
          obtain ⟨w, hw⟩ :=
            ih 0 (n - (8 - o)) (((v <<< (8 - o)) % 2 ^ 64) ||| andNot64 b0 (255 <<< (8 - o)))
              (by omega) hb'
          refine ⟨w, ?_⟩
          show beGetLoop rest 0 (n - (8 - o)) _ = _
          rw [hw]
          have h1 : (o + n) / 8 = (0 + (n - (8 - o))) / 8 + 1 := by omega
          have h2 : (o + n) % 8 = (0 + (n - (8 - o))) % 8 := by omega
          rw [h1, h2]
          simp
        · rw [if_neg hr]
          refine ⟨((v <<< n) % 2 ^ 64) ||| andNot64 (b0 >>> (8 - o - n)) (255 <<< n), ?_⟩
          have h1 : (o + n) / 8 = 0 := by omega
          have h2 : (o + n) % 8 = o + n := by omega
          rw [h1, h2]
          simp

theorem beGet64_advance (b : List Nat) (o : Nat) (ho : o < 8)
    (hb : o + 64 ≤ 8 * b.length) :
    ∃ w, beGet64 b o = some (b.drop 8, o, w) := by
  rcases b with _ | ⟨a0, b⟩
  · simp at hb
  rcases b with _ | ⟨a1, b⟩
  · simp at hb
  rcases b with _ | ⟨a2, b⟩
  · simp at hb
  rcases b with _ | ⟨a3, b⟩
  · simp at hb
  rcases b with _ | ⟨a4, b⟩
  · simp at hb
  rcases b with _ | ⟨a5, b⟩
  · simp at hb
  rcases b with _ | ⟨a6, b⟩
  · simp at hb
  rcases b with _ | ⟨a7, b⟩
  · simp at hb
  by_cases ho0 : o = 0
  · subst ho0
    refine ⟨a0 <<< 56 ||| a1 <<< 48 ||| a2 <<< 40 ||| a3 <<< 32 |||
      a4 <<< 24 ||| a5 <<< 16 ||| a6 <<< 8 ||| a7, ?_⟩
    rw [beGet64]
    simp
  · rcases b with _ | ⟨a8, b⟩
    · simp at hb
      omega
    · refine ⟨(((a0 <<< 56 ||| a1 <<< 48 ||| a2 <<< 40 ||| a3 <<< 32 |||
        a4 <<< 24 ||| a5 <<< 16 ||| a6 <<< 8 ||| a7) <<< o) % 2 ^ 64) |||
        a8 >>> (8 - o), ?_⟩
      rw [beGet64]
      simp [ho0]

theorem beGet_advance (b : List Nat) (o n : Nat) (ho : o < 8) (hn : n ≤ 64)
    (hb : o + n ≤ 8 * b.length) :
    ∃ w, beGet b o n = some (b.drop ((o + n) / 8), (o + n) % 8, w) := by
  unfold beGet
  by_cases h64 : 64 ≤ n
  · have hn64 : n = 64 := by omega
    subst hn64
    rw [if_pos h64]
    have h1 : (o + 64) / 8 = 8 := by omega
    have h2 : (o + 64) % 8 = o := by omega
    rw [h1, h2]
    exact beGet64_advance b o ho hb
  · rw [if_neg h64]
    exact beGetLoop_advance b o n 0 ho hb

/-- C5 (amended): for a valid cursor, `ReadBits n` clamps `n` to 64 before
the end-of-field test, so it fails with the end-of-field result exactly when
`min n 64` exceeds the remaining width — returning the cursor unmutated —
and otherwise succeeds, consuming `min n 64` (= `min n remainingWidth 64`)
bits: the remaining width shrinks by that amount and the position advances
past the consumed bits. -/
theorem C5_readBits (f : BigEndianField) (n : Nat) (ho : f.o < 8)
    (hb : f.o + f.w ≤ 8 * f.b.length) :
    (f.w < min n 64 → f.ReadBits n = some (ReadBitsResult.eof f)) ∧
    (min n 64 ≤ f.w → ∃ v f', f.ReadBits n = some (ReadBitsResult.ok v f') ∧
      f'.w = f.w - min n 64 ∧
      f'.b = f.b.drop ((f.o + min n 64) / 8) ∧ f'.o = (f.o + min n 64) % 8) := by
  have hclamp : (if 64 < n then 64 else n) = min n 64 := by
    split <;> omega
  constructor
  · intro hlt
    unfold BigEndianField.ReadBits
    rw [hclamp, if_pos hlt]
  · intro hle
    unfold BigEndianField.ReadBits
    rw [hclamp, if_neg (by omega)]
    obtain ⟨w, hw⟩ := beGet_advance f.b f.o (min n 64) ho (by omega) (by omega)
    refine ⟨w, ⟨f.b.drop ((f.o + min n 64) / 8), (f.o + min n 64) % 8, f.w - min n 64⟩,
      ?_, rfl, rfl, rfl⟩
    rw [hw]
    simp

/-- C5 counterexample: on a cursor of remaining width 64, `ReadBits 65`
succeeds and consumes 64 bits even though `n = 65` exceeds the remaining
width, because the source clamps `n` to 64 before the end-of-field test;
the claim as stated demands an end-of-field failure here. -/
theorem C5_counterexample :
    BigEndianField.ReadBits ⟨[1, 2, 3, 4, 5, 6, 7, 8], 0, 64⟩ 65
      = some (ReadBitsResult.ok 72623859790382856 ⟨[], 0, 0⟩) ∧ 64 < 65 := by
  constructor
  · decide
  · omega

/-- C5 witness: the spec's own 10-bit scenario.  On the cursor left by
`ReadBits 6` over a 10-bit field (4 bits remain), another `ReadBits 6`
signals end-of-field and returns the cursor unmutated. -/
theorem C5_witness :
    BigEndianField.ReadBits ⟨[171, 205], 6, 4⟩ 6
      = some (ReadBitsResult.eof ⟨[171, 205], 6, 4⟩) :=
  (C5_readBits ⟨[171, 205], 6, 4⟩ 6 (by decide) (by decide)).1 (by decide)

/-!
## C7: leading and trailing zero counts
-/

theorem lz8Aux_le (f v : Nat) : lz8Aux f v ≤ f := by
  induction f with
  | zero => simp [lz8Aux]
  | succ k ih =>
    rw [lz8Aux]
    split
    · omega
    · omega

theorem leadingZeros8_le (v : Nat) : leadingZeros8 v ≤ 8 := lz8Aux_le 8 v

theorem leadingZeros8_pow {s : Nat} (hs : s < 8) : leadingZeros8 (2 ^ (7 - s)) = s := by
  interval_cases s <;> decide

theorem trailingZeros8_pow {m : Nat} (hm : m < 8) : trailingZeros8 (2 ^ m) = m := by
  interval_cases m <;> decide

theorem leadingZeros_le (B : List Nat) :
    BigEndianBits.LeadingZeros B ≤ 8 * B.length := by
  induction B with
  | nil => simp [BigEndianBits.LeadingZeros]
  | cons v rest ih =>
    rw [BigEndianBits.LeadingZeros]
    split
    · have := leadingZeros8_le v
      simp
      omega
    · simp
      omega

theorem leadingZeros_of_zero {B : List Nat} :
    (∀ j, j < B.length → B.getD j 0 = 0) →
    BigEndianBits.LeadingZeros B = 8 * B.length := by
  induction B with
  | nil => intro _; simp [BigEndianBits.LeadingZeros]
  | cons v rest ih =>
    intro h
    have h0 : v = 0 := h 0 (by simp)
    rw [BigEndianBits.LeadingZeros, if_neg (by simp [h0])]
    rw [ih (fun j hj => by
      have := h (j + 1) (by simp; omega)
      simpa using this)]
    simp
    ring

theorem trailingAux_of_zero {L : List Nat} :
    (∀ j, j < L.length → L.getD j 0 = 0) →
    trailingAux L = 8 * L.length := by
  induction L with
  | nil => intro _; simp [trailingAux]
  | cons v rest ih =>
    intro h
    have h0 : v = 0 := h 0 (by simp)
    rw [trailingAux, if_neg (by simp [h0])]
    rw [ih (fun j hj => by
      have := h (j + 1) (by simp; omega)
      simpa using this)]
    simp
    ring

theorem leadingZeros_single {B : List Nat} : ∀ (k s : Nat), s < 8 → k < B.length →
    (∀ j, j < k → B.getD j 0 = 0) → B.getD k 0 = 2 ^ (7 - s) →
    BigEndianBits.LeadingZeros B = 8 * k + s := by
  induction B with
  | nil => intro k s _ hk; simp at hk
  | cons v rest ih =>
    intro k s hs hk hz hv
    cases k with
    | zero =>
      have hv0 : v = 2 ^ (7 - s) := by simpa using hv
      rw [BigEndianBits.LeadingZeros,
        if_pos (by rw [hv0]; exact pow_ne_zero _ (by norm_num))]
      rw [hv0, leadingZeros8_pow hs]
      simp
    | succ k =>
      have h0 : v = 0 := hz 0 (by omega)
      rw [BigEndianBits.LeadingZeros, if_neg (by simp [h0])]
      rw [ih k s hs (by simpa using hk)
        (fun j hj => by
          have := hz (j + 1) (by omega)
          simpa using this)
        (by simpa using hv)]
      ring

theorem trailingAux_single {L : List Nat} : ∀ (k m : Nat), m < 8 → k < L.length →
    (∀ j, j < k → L.getD j 0 = 0) → L.getD k 0 = 2 ^ m →
    trailingAux L = 8 * k + m := by
  induction L with
  | nil => intro k m _ hk; simp at hk
  | cons v rest ih =>
    intro k m hm hk hz hv
    cases k with
    | zero =>
      have hv0 : v = 2 ^ m := by simpa using hv
      rw [trailingAux,
        if_pos (by rw [hv0]; exact pow_ne_zero _ (by norm_num))]
      rw [hv0, trailingZeros8_pow hm]
      simp
    | succ k =>
      have h0 : v = 0 := hz 0 (by omega)
      rw [trailingAux, if_neg (by simp [h0])]
      rw [ih k m hm (by simpa using hk)
        (fun j hj => by
          have := hz (j + 1) (by omega)
          simpa using this)
        (by simpa using hv)]
      ring

theorem getD_reverse {B : List Nat} {j : Nat} (h : j < B.length) :
    B.reverse.getD j 0 = B.getD (B.length - 1 - j) 0 := by
  rw [List.getD_eq_getElem?_getD, List.getD_eq_getElem?_getD]
  rw [List.getElem?_eq_getElem (by simpa using h),
    List.getElem?_eq_getElem (by omega)]
  simp [List.getElem_reverse]

/-- From the exactly-one-bit hypothesis, the byte holding `p` is the
corresponding power of two and every other byte is zero. -/
theorem single_bit_bytes {B : List Nat} (hok : bytesOK B) {p : Nat}
    (hp : p < 8 * B.length)
    (h : ∀ i, i < 8 * B.length → (bitAt B i = true ↔ i = p)) :
    (∀ j, j < B.length → j ≠ p / 8 → B.getD j 0 = 0) ∧
    B.getD (p / 8) 0 = 2 ^ (7 - p % 8) := by
  have hbit : ∀ j q, j < B.length → q < 8 →
      (B.getD j 0).testBit q = decide (8 * j + (7 - q) = p) := by
    intro j q hj hq
    have := h (8 * j + (7 - q)) (by omega)
    rw [bitAt_byte _ _ _ (by omega)] at this
    have h7 : 7 - (7 - q) = q := by omega
    rw [h7] at this
    by_cases he : 8 * j + (7 - q) = p
    · rw [this.mpr he]
      simp [he]
    · have hf : (B.getD j 0).testBit q = false := by
        cases hc : (B.getD j 0).testBit q
        · rfl
        · exact absurd (this.mp hc) he
      rw [hf]
      simp [he]
  constructor
  · intro j hj hne
    apply byte_ext (bytesOK_getD hok j) (by norm_num)
    intro q hq
    rw [hbit j q hj hq]
    simp
    omega
  · apply byte_ext (bytesOK_getD hok (p / 8)) (by
      have : (2:Nat) ^ (7 - p % 8) ≤ 2 ^ 7 := Nat.pow_le_pow_right (by norm_num) (by omega)
      omega)
    intro q hq
    rw [hbit (p / 8) q (by omega) hq, Nat.testBit_two_pow]
    simp
    omega

/-- C7: the leading-zero count is at most `8 * len B` (it is a `Nat`, so
nonnegative); on an all-zero buffer both `LeadingZeros` and `TrailingZeros`
return `8 * len B`; and on a buffer whose only 1 bit sits at absolute
big-endian position `p`, `LeadingZeros` is `p` and `TrailingZeros` is
`8 * len B - 1 - p`. -/
theorem C7_zero_counts (B : List Nat) (hok : bytesOK B) :
    (BigEndianBits.LeadingZeros B ≤ 8 * B.length) ∧
    ((∀ i, i < 8 * B.length → bitAt B i = false) →
      BigEndianBits.LeadingZeros B = 8 * B.length ∧
      BigEndianBits.TrailingZeros B = 8 * B.length) ∧
    (∀ p, p < 8 * B.length → (∀ i, i < 8 * B.length → (bitAt B i = true ↔ i = p)) →
      BigEndianBits.LeadingZeros B = p ∧
      BigEndianBits.TrailingZeros B = 8 * B.length - 1 - p) := by
  refine ⟨leadingZeros_le B, fun hz => ?_, fun p hp h1 => ?_⟩
  · have hbytes : ∀ j, j < B.length → B.getD j 0 = 0 := by
      intro j hj
      apply byte_ext (bytesOK_getD hok j) (by norm_num)
      intro q hq
      have := hz (8 * j + (7 - q)) (by omega)
      rw [bitAt_byte _ _ _ (by omega)] at this
      have h7 : 7 - (7 - q) = q := by omega
      rw [h7] at this
      rw [this]
      simp
    refine ⟨leadingZeros_of_zero hbytes, ?_⟩
    unfold BigEndianBits.TrailingZeros
    rw [trailingAux_of_zero (fun j hj => by
      rw [getD_reverse (by simpa using hj)]
      exact hbytes _ (by simp at hj; omega))]
    simp
  · obtain ⟨hzero, hpow⟩ := single_bit_bytes hok hp h1
    constructor
    · have := leadingZeros_single (p / 8) (p % 8) (by omega) (by omega)
        (fun j hj => hzero j (by omega) (by omega)) hpow
      rw [this]
      omega
    · unfold BigEndianBits.TrailingZeros
      have hrev := trailingAux_single (L := B.reverse) (B.length - 1 - p / 8) (7 - p % 8)
        (by omega) (by simp; omega)
        (fun j hj => by
          rw [getD_reverse (by omega)]
          exact hzero _ (by omega) (by omega))
        (by
          rw [getD_reverse (by omega)]
          have he : B.length - 1 - (B.length - 1 - p / 8) = p / 8 := by omega
          rw [he, hpow])
      rw [hrev]
      omega

/-- C7 witness at the concrete buffer `[0, 4, 0]`, whose single 1 bit is at
position 13: LeadingZeros is 13 and TrailingZeros is 10 = 24 - 1 - 13. -/
theorem C7_witness :
    BigEndianBits.LeadingZeros [0, 4, 0] = 13 ∧
    BigEndianBits.TrailingZeros [0, 4, 0] = 8 * 3 - 1 - 13 :=
  (C7_zero_counts [0, 4, 0] (by decide)).2.2 13 (by decide) (by decide)

/-!
## List getD helpers
-/

theorem getD_drop (L : List Nat) (k i : Nat) : (L.drop k).getD i 0 = L.getD (k + i) 0 := by
  rw [List.getD_eq_getElem?_getD, List.getD_eq_getElem?_getD, List.getElem?_drop]

theorem getD_append_left {u : List Nat} (v : List Nat) {i : Nat} (h : i < u.length) :
    (u ++ v).getD i 0 = u.getD i 0 := by
  rw [List.getD_eq_getElem?_getD, List.getD_eq_getElem?_getD, List.getElem?_append_left h]

theorem getD_append_right {u : List Nat} (v : List Nat) {i : Nat} (h : u.length ≤ i) :
    (u ++ v).getD i 0 = v.getD (i - u.length) 0 := by
  rw [List.getD_eq_getElem?_getD, List.getD_eq_getElem?_getD, List.getElem?_append_right h]

theorem getD_take (L : List Nat) {k i : Nat} (h : i < k) :
    (L.take k).getD i 0 = L.getD i 0 := by
  rw [List.getD_eq_getElem?_getD, List.getD_eq_getElem?_getD, List.getElem?_take_of_lt h]

theorem getElem?_eq_getD {L : List Nat} {i : Nat} (h : i < L.length) :
    L[i]? = some (L.getD i 0) := by
  rw [List.getD_eq_getElem?_getD, List.getElem?_eq_getElem h]
  simp

theorem getD_set_eq {L : List Nat} {i : Nat} (v : Nat) (h : i < L.length) :
    (L.set i v).getD i 0 = v := by
  rw [List.getD_eq_getElem?_getD, List.getElem?_set_self (by simpa using h)]
  simp

theorem getD_set_ne {L : List Nat} {i j : Nat} (v : Nat) (h : i ≠ j) :
    (L.set i v).getD j 0 = L.getD j 0 := by
  rw [List.getD_eq_getElem?_getD, List.getD_eq_getElem?_getD, List.getElem?_set_ne h]

theorem list_eq_of_getD {a b : List Nat} (hlen : a.length = b.length)
    (h : ∀ j, j < a.length → a.getD j 0 = b.getD j 0) : a = b := by
  apply List.ext_getElem hlen
  intro j hj hj2
  have := h j hj
  rw [List.getD_eq_getElem?_getD, List.getD_eq_getElem?_getD,
    List.getElem?_eq_getElem hj, List.getElem?_eq_getElem hj2] at this
  simpa using this

theorem set_getD_self {L : List Nat} {i : Nat} : L.set i (L.getD i 0) = L := by
  apply list_eq_of_getD (by simp)
  intro j hj
  by_cases he : i = j
  · subst he
    exact getD_set_eq _ (by simpa using hj)
  · exact getD_set_ne _ he

/-!
## Pointwise characterization of the extract2 loops
-/

theorem e2buildAux_none_of_val_none {x y : List Nat} {xl obits : Nat} :
    ∀ (rem i j : Nat), i ≤ j → j < i + rem → e2val x y xl obits j = none →
    e2buildAux x y xl obits i rem = none := by
  intro rem
  induction rem with
  | zero => intro i j h1 h2; omega
  | succ k ih =>
    intro i j h1 h2 hj
    rw [e2buildAux]
    by_cases he : j = i
    · subst he
      rw [hj]
    · have := ih (i+1) j (by omega) (by omega) hj
      rw [this]
      cases e2val x y xl obits i <;> rfl

theorem e2buildAux_some_spec {x y : List Nat} {xl obits : Nat} :
    ∀ (rem i : Nat), (∀ j, i ≤ j → j < i + rem → (e2val x y xl obits j).isSome) →
    ∃ r, e2buildAux x y xl obits i rem = some r ∧ r.length = rem ∧
      ∀ t, t < rem → e2val x y xl obits (i + t) = some (r.getD t 0) := by
  intro rem
  induction rem with
  | zero => intro i _; exact ⟨[], rfl, rfl, fun t ht => by omega⟩
  | succ k ih =>
    intro i h
    obtain ⟨r, hr, hlen, hval⟩ := ih (i+1) (fun j h1 h2 => h j (by omega) (by omega))
    have hi : (e2val x y xl obits i).isSome := h i (by omega) (by omega)
    obtain ⟨v, hv⟩ := Option.isSome_iff_exists.mp hi
    refine ⟨v :: r, ?_, by simp [hlen], ?_⟩
    · rw [e2buildAux, hv, hr]
    · intro t ht
      cases t with
      | zero => simpa using hv
      | succ t' =>
        have := hval t' (by omega)
        have harith : i + (t' + 1) = i + 1 + t' := by omega
        rw [harith]
        simpa using this

/-- Under the in-bounds condition, the byte written at index `i` of the
non-aligned branch is assembled from concatenation bytes `i` and `i+1`. -/
theorem e2val_fits {u v : List Nat} {obits l i : Nat}
    (hu : 1 ≤ u.length) (hfits : l + 1 ≤ u.length + v.length) (hi : i < l) :
    e2val u v (if l < u.length then l + 1 else u.length) obits i =
      some (shl8 ((u ++ v).getD i 0) obits ||| ((u ++ v).getD (i + 1) 0) >>> (8 - obits)) := by
  unfold e2val
  by_cases hcase : l < u.length
  · rw [if_pos hcase]
    rw [if_pos (show i < l + 1 - 1 by omega)]
    rw [getElem?_eq_getD (by omega), getElem?_eq_getD (by omega),
      getD_append_left v (by omega), getD_append_left v (by omega)]
  · rw [if_neg hcase]
    by_cases h1 : i < u.length - 1
    · rw [if_pos h1]
      rw [getElem?_eq_getD (by omega), getElem?_eq_getD (by omega),
        getD_append_left v (by omega), getD_append_left v (by omega)]
    · rw [if_neg h1]
      by_cases h2 : i = u.length - 1
      · rw [if_pos h2]
        have hv : 1 ≤ v.length := by omega
        rw [getElem?_eq_getD (show i < u.length by omega), getElem?_eq_getD (by omega),
          getD_append_left v (by omega), getD_append_right v (by omega)]
        have hz : i + 1 - u.length = 0 := by omega
        rw [hz]
      · rw [if_neg h2]
        have hge : u.length ≤ i := by omega
        rw [getElem?_eq_getD (show i - u.length < v.length by omega),
          getElem?_eq_getD (show i + 1 - u.length < v.length by omega),
          getD_append_right v hge, getD_append_right v (by omega)]

/-!
## extract2: success, contents, and fault conditions
-/

theorem extract2Core_aligned {u v : List Nat} {l : Nat}
    (hfits : l ≤ u.length + v.length) :
    ∃ r, extract2Core l u v 0 = some r ∧ r.length = l ∧
      ∀ i, i < l → r.getD i 0 = (u ++ v).getD i 0 := by
  unfold extract2Core
  rw [if_pos rfl]
  by_cases hcase : l ≤ u.length
  · rw [if_pos hcase]
    refine ⟨_, rfl, by rw [List.length_take]; omega, ?_⟩
    intro i hi
    rw [getD_take _ hi, getD_append_left v (by omega)]
  · rw [if_neg hcase, if_pos hfits]
    refine ⟨_, rfl, by rw [List.length_append, List.length_take]; omega, ?_⟩
    intro i hi
    by_cases hiu : i < u.length
    · rw [getD_append_left _ hiu, getD_append_left v hiu]
    · rw [getD_append_right _ (by omega), getD_append_right v (by omega),
        getD_take _ (by omega)]

theorem extract2Core_na {u v : List Nat} {obits l : Nat} (hob : obits ≠ 0)
    (hu : 1 ≤ u.length) (hfits : l + 1 ≤ u.length + v.length) :
    ∃ r, extract2Core l u v obits = some r ∧ r.length = l ∧
      ∀ i, i < l → r.getD i 0 = shl8 ((u ++ v).getD i 0) obits |||
        ((u ++ v).getD (i + 1) 0) >>> (8 - obits) := by
  unfold extract2Core
  rw [if_neg hob]
  unfold e2build
  obtain ⟨r, hr, hlen, hval⟩ :=
    @e2buildAux_some_spec u v (if l < u.length then l + 1 else u.length) obits l 0
      (fun j h1 h2 => by
        rw [e2val_fits hu hfits (by omega)]
        rfl)
  refine ⟨r, by simpa using hr, by omega, ?_⟩
  intro i hi
  have hv := hval i (by omega)
  simp only [Nat.zero_add] at hv
  rw [e2val_fits hu hfits hi] at hv
  exact (Option.some.inj hv).symm

theorem extract2Core_fault {u v : List Nat} {obits l : Nat} (hl : 1 ≤ l)
    (ho : obits < 8) (hnf : 8 * (u.length + v.length) < obits + 8 * l) :
    extract2Core l u v obits = none := by
  unfold extract2Core
  by_cases hob : obits = 0
  · subst hob
    rw [if_pos rfl, if_neg (by omega), if_neg (by omega)]
  · rw [if_neg hob]
    unfold e2build
    have hA : u.length + v.length ≤ l := by omega
    have hxl : (if l < u.length then l + 1 else u.length) = u.length := by
      rw [if_neg (by omega)]
    rw [hxl]
    by_cases hv : v.length = 0
    · -- the boundary crossing reads y[0] from an empty second source
      by_cases hu : u.length = 0
      · apply e2buildAux_none_of_val_none l 0 0 (by omega) (by omega)
        unfold e2val
        rw [if_neg (by omega), if_pos (by omega)]
        have : u[0]? = none := by
          rw [List.getElem?_eq_none_iff]
          omega
        rw [this]
      · apply e2buildAux_none_of_val_none l 0 (u.length - 1) (by omega) (by omega)
        unfold e2val
        rw [if_neg (by omega), if_pos rfl]
        have : v[0]? = none := by
          rw [List.getElem?_eq_none_iff]
          omega
        rw [this]
        cases u[u.length - 1]? <;> rfl
    · -- the second loop reads one byte past the end of the second source
      apply e2buildAux_none_of_val_none l 0 (u.length + v.length - 1) (by omega) (by omega)
      unfold e2val
      by_cases hu : u.length = 0
      · by_cases h1 : u.length + v.length - 1 = u.length - 1
        · rw [if_neg (by omega), if_pos h1]
          have : u[u.length + v.length - 1]? = none := by
            rw [List.getElem?_eq_none_iff]
            omega
          rw [this]
        · rw [if_neg (by omega), if_neg h1]
          have : v[u.length + v.length - 1 + 1 - u.length]? = none := by
            rw [List.getElem?_eq_none_iff]
            omega
          rw [this]
          cases v[u.length + v.length - 1 - u.length]? <;> rfl
      · rw [if_neg (by omega), if_neg (by omega)]
        have : v[u.length + v.length - 1 + 1 - u.length]? = none := by
          rw [List.getElem?_eq_none_iff]
          omega
        rw [this]
        cases v[u.length + v.length - 1 - u.length]? <;> rfl

theorem extract2_some_of_fits {z x y : List Nat} {ofs : Nat}
    (hfits : ofs + 8 * z.length ≤ 8 * (x.length + y.length)) :
    (extract2 z x y ofs).isSome := by
  unfold extract2
  have hmod : ofs % 8 < 8 := Nat.mod_lt ofs (by norm_num)
  have hdiv : 8 * (ofs / 8) + ofs % 8 = ofs := by omega
  by_cases hA : ofs / 8 < x.length
  · rw [if_pos hA]
    by_cases hob : ofs % 8 = 0
    · rw [hob]
      obtain ⟨r, hr, _, _⟩ := extract2Core_aligned
        (u := x.drop (ofs / 8)) (v := y) (l := z.length)
        (by rw [List.length_drop]; omega)
      rw [hr]
      rfl
    · obtain ⟨r, hr, _, _⟩ := extract2Core_na
        (u := x.drop (ofs / 8)) (v := y) (l := z.length) hob
        (by rw [List.length_drop]; omega)
        (by rw [List.length_drop]; omega)
      rw [hr]
      rfl
  · rw [if_neg hA]
    unfold goSlice
    rw [if_pos (by omega)]
    show (extract2Core z.length (y.drop (ofs / 8 - x.length)) [] (ofs % 8)).isSome
    by_cases hob : ofs % 8 = 0
    · rw [hob]
      obtain ⟨r, hr, _, _⟩ := extract2Core_aligned
        (u := y.drop (ofs / 8 - x.length)) (v := ([] : List Nat)) (l := z.length)
        (by rw [List.length_drop]; simp; omega)
      rw [hr]
      rfl
    · obtain ⟨r, hr, _, _⟩ := extract2Core_na
        (u := y.drop (ofs / 8 - x.length)) (v := ([] : List Nat)) (l := z.length) hob
        (by rw [List.length_drop]; omega)
        (by rw [List.length_drop]; simp; omega)
      rw [hr]
      rfl

theorem extract2_fault {z x y : List Nat} {ofs : Nat} (hl : 1 ≤ z.length)
    (hnf : 8 * (x.length + y.length) < ofs + 8 * z.length) :
    extract2 z x y ofs = none := by
  unfold extract2
  have hmod : ofs % 8 < 8 := Nat.mod_lt ofs (by norm_num)
  have hdiv : 8 * (ofs / 8) + ofs % 8 = ofs := by omega
  by_cases hA : ofs / 8 < x.length
  · rw [if_pos hA]
    exact extract2Core_fault hl hmod (by rw [List.length_drop]; omega)
  · rw [if_neg hA]
    unfold goSlice
    by_cases hk : ofs / 8 - x.length ≤ y.length
    · rw [if_pos hk]
      show extract2Core z.length (y.drop (ofs / 8 - x.length)) [] (ofs % 8) = none
      exact extract2Core_fault hl hmod (by rw [List.length_drop]; simp; omega)
    · rw [if_neg hk]
      rfl

/-!
## C6: bounds behaviour of extract2
-/

/-- C6 counterexample: with an empty destination (`l = 0`) and offset 1,
the requested bits exceed the empty sources' combined bits, yet `extract2`
completes without any fault (no index is ever touched), so the claim's
"must fault" direction fails at this input. -/
theorem C6_counterexample :
    extract2 [] [] [] 1 = some [] ∧
    ¬ (1 + 8 * ([] : List Nat).length ≤
        8 * (([] : List Nat).length + ([] : List Nat).length)) := by
  constructor
  · decide
  · decide

/-- C6 (amended): `extract2` completes (all indexing in range) whenever the
requested `8 * len z` bits starting at `ofs` fit in the logical
concatenation of `x` and `y`; and it faults whenever the request exceeds
the combined available bits, provided that the destination is nonempty
(for `len z = 0`, small out-of-range offsets complete without a fault). -/
theorem C6_extract2_bounds (z x y : List Nat) (ofs : Nat) :
    (ofs + 8 * z.length ≤ 8 * (x.length + y.length) → (extract2 z x y ofs).isSome) ∧
    (1 ≤ z.length → 8 * (x.length + y.length) < ofs + 8 * z.length →
      extract2 z x y ofs = none) :=
  ⟨fun h => extract2_some_of_fits h, fun h1 h2 => extract2_fault h1 h2⟩

/-- C6 witness: a field that fits completes; a nonempty destination with
empty sources faults. -/
theorem C6_witness :
    (extract2 [0] [1, 2] [] 3).isSome ∧ extract2 [0] [] [] 0 = none := by
  constructor
  · exact (C6_extract2_bounds [0] [1, 2] [] 3).1 (by decide)
  · exact (C6_extract2_bounds [0] [] [] 0).2 (by decide) (by decide)

/-!
## C1: the Bits / SetBits round trip
-/

theorem e2buildAux_length {x y : List Nat} {xl obits : Nat} :
    ∀ (rem i : Nat) (r : List Nat), e2buildAux x y xl obits i rem = some r →
    r.length = rem := by
  intro rem
  induction rem with
  | zero =>
    intro i r h
    rw [e2buildAux] at h
    simp at h
    simp [h]
  | succ k ih =>
    intro i r h
    rw [e2buildAux] at h
    rcases hv : e2val x y xl obits i with _ | v <;> rw [hv] at h
    · simp at h
    · rcases hr : e2buildAux x y xl obits (i+1) k with _ | r' <;> rw [hr] at h
      · simp at h
      · simp at h
        rw [← h]
        simp [ih (i+1) r' hr]

theorem extract2_some_length {z x y : List Nat} {ofs : Nat} {r : List Nat}
    (h : extract2 z x y ofs = some r) : r.length = z.length := by
  unfold extract2 at h
  have hcore : ∀ (u v : List Nat), extract2Core z.length u v (ofs % 8) = some r →
      r.length = z.length := by
    intro u v hc
    unfold extract2Core at hc
    by_cases hob : ofs % 8 = 0
    · rw [if_pos hob] at hc
      by_cases h1 : z.length ≤ u.length
      · rw [if_pos h1] at hc
        simp at hc
        rw [← hc, List.length_take]
        omega
      · rw [if_neg h1] at hc
        by_cases h2 : z.length ≤ u.length + v.length
        · rw [if_pos h2] at hc
          simp at hc
          rw [← hc, List.length_append, List.length_take]
          omega
        · rw [if_neg h2] at hc
          simp at hc
    · rw [if_neg hob] at hc
      unfold e2build at hc
      have := e2buildAux_length _ _ _ hc
      omega
  by_cases hA : ofs / 8 < x.length
  · rw [if_pos hA] at h
    exact hcore _ _ h
  · rw [if_neg hA] at h
    unfold goSlice at h
    by_cases hk : ofs / 8 - x.length ≤ y.length
    · rw [if_pos hk] at h
      exact hcore _ _ h
    · rw [if_neg hk] at h
      simp at h

theorem shiftRight3_eq (a : Nat) : a >>> 3 = a / 8 := by
  rw [Nat.shiftRight_eq_div_pow]

theorem and7_eq (a : Nat) : a &&& 7 = a % 8 := by
  rw [show (7 : Nat) = 2 ^ 3 - 1 from rfl, Nat.and_pow_two_sub_one_eq_mod]

theorem Grow_nil (l : Nat) : Grow [] l = List.replicate l 0 := by
  unfold Grow
  cases l <;> simp

/-- The unmasked byte `i` of a left-aligned extraction at bit offset `o`
from buffer `B` (with the logically appended zero byte). -/
def e2raw (B : List Nat) (o i : Nat) : Nat :=
  if o % 8 = 0 then (B ++ zeroByte).getD (o / 8 + i) 0
  else shl8 ((B ++ zeroByte).getD (o / 8 + i) 0) (o % 8) |||
    ((B ++ zeroByte).getD (o / 8 + i + 1) 0) >>> (8 - o % 8)

theorem catD_skipA {x y : List Nat} {k : Nat} (hk : k ≤ x.length) (i : Nat) :
    ((x.drop k) ++ y).getD i 0 = (x ++ y).getD (k + i) 0 := by
  rw [← List.drop_append_of_le_length hk, getD_drop]

theorem catD_skipB {x y : List Nat} {k : Nat} (hk : x.length ≤ k) (i : Nat) :
    ((y.drop (k - x.length)) ++ ([] : List Nat)).getD i 0 = (x ++ y).getD (k + i) 0 := by
  rw [List.append_nil, getD_drop, getD_append_right y (by omega)]
  congr 1
  omega

/-- Byte-level description of extract2 on a destination of length `l`:
aligned case. -/
theorem extract2_bytes_aligned {z x y : List Nat} {ofs : Nat} (hob : ofs % 8 = 0)
    (hfits : ofs / 8 + z.length ≤ x.length + y.length) :
    ∃ r, extract2 z x y ofs = some r ∧ r.length = z.length ∧
      ∀ i, i < z.length → r.getD i 0 = (x ++ y).getD (ofs / 8 + i) 0 := by
  unfold extract2
  by_cases hA : ofs / 8 < x.length
  · rw [if_pos hA, hob]
    obtain ⟨r, hr, hlen, hval⟩ := extract2Core_aligned
      (u := x.drop (ofs / 8)) (v := y) (l := z.length)
      (by rw [List.length_drop]; omega)
    refine ⟨r, hr, hlen, fun i hi => ?_⟩
    rw [hval i hi, catD_skipA (by omega)]
  · rw [if_neg hA]
    unfold goSlice
    rw [if_pos (by omega), hob]
    obtain ⟨r, hr, hlen, hval⟩ := extract2Core_aligned
      (u := y.drop (ofs / 8 - x.length)) (v := ([] : List Nat)) (l := z.length)
      (by rw [List.length_drop]; simp; omega)
    refine ⟨r, hr, hlen, fun i hi => ?_⟩
    rw [hval i hi, catD_skipB (by omega)]

/-- Byte-level description of extract2 on a destination of length `l`:
non-aligned case. -/
theorem extract2_bytes_na {z x y : List Nat} {ofs : Nat} (hob : ofs % 8 ≠ 0)
    (hfits : ofs / 8 + z.length + 1 ≤ x.length + y.length) :
    ∃ r, extract2 z x y ofs = some r ∧ r.length = z.length ∧
      ∀ i, i < z.length → r.getD i 0 =
        shl8 ((x ++ y).getD (ofs / 8 + i) 0) (ofs % 8) |||
          ((x ++ y).getD (ofs / 8 + i + 1) 0) >>> (8 - ofs % 8) := by
  unfold extract2
  by_cases hA : ofs / 8 < x.length
  · rw [if_pos hA]
    obtain ⟨r, hr, hlen, hval⟩ := extract2Core_na
      (u := x.drop (ofs / 8)) (v := y) (l := z.length) hob
      (by rw [List.length_drop]; omega)
      (by rw [List.length_drop]; omega)
    refine ⟨r, hr, hlen, fun i hi => ?_⟩
    rw [hval i hi, catD_skipA (by omega), catD_skipA (by omega)]
    congr 2
  · rw [if_neg hA]
    unfold goSlice
    rw [if_pos (by omega)]
    obtain ⟨r, hr, hlen, hval⟩ := extract2Core_na
      (u := y.drop (ofs / 8 - x.length)) (v := ([] : List Nat)) (l := z.length) hob
      (by rw [List.length_drop]; omega)
      (by rw [List.length_drop]; simp; omega)
    refine ⟨r, hr, hlen, fun i hi => ?_⟩
    rw [hval i hi, catD_skipB (by omega), catD_skipB (by omega)]
    congr 2

/-- Byte-level description of the left-aligned `Bits` extraction of a field
wholly inside the source buffer: byte `i` is the unmasked assembled byte,
with the final byte masked down to the field's tail bits. -/
theorem bitsLeft_spec {B : List Nat} {o w : Nat} (hw : 1 ≤ w)
    (how : o + w ≤ 8 * B.length) :
    ∃ x, BigEndianOrder.Bits [] B o w = some x ∧ x.length = (w + 7) / 8 ∧
      ∀ i, i < (w + 7) / 8 →
        x.getD i 0 =
          if w % 8 ≠ 0 ∧ i = (w + 7) / 8 - 1 then
            e2raw B o i &&& ((0xff00 >>> (w % 8)) % 256)
          else e2raw B o i := by
  have hl : 1 ≤ (w + 7) / 8 := by omega
  obtain ⟨r, hr1, hr2, hr3⟩ : ∃ r,
      extract2 (List.replicate ((w + 7) / 8) 0) B zeroByte o = some r ∧
      r.length = (w + 7) / 8 ∧
      ∀ i, i < (w + 7) / 8 → r.getD i 0 = e2raw B o i := by
    by_cases hob : o % 8 = 0
    · obtain ⟨r, h1, h2, h3⟩ := extract2_bytes_aligned (z := List.replicate ((w+7)/8) 0)
        (x := B) (y := zeroByte) hob (by simp [zeroByte]; omega)
      refine ⟨r, h1, by simpa using h2, fun i hi => ?_⟩
      rw [h3 i (by simpa using hi)]
      unfold e2raw
      rw [if_pos hob]
    · obtain ⟨r, h1, h2, h3⟩ := extract2_bytes_na (z := List.replicate ((w+7)/8) 0)
        (x := B) (y := zeroByte) hob (by simp [zeroByte]; omega)
      refine ⟨r, h1, by simpa using h2, fun i hi => ?_⟩
      rw [h3 i (by simpa using hi)]
      unfold e2raw
      rw [if_neg hob]
  refine ⟨if w % 8 ≠ 0 then
      r.set ((w + 7) / 8 - 1)
        (r.getD ((w + 7) / 8 - 1) 0 &&& ((0xff00 >>> (w % 8)) % 256))
    else r, ?_, ?_, ?_⟩
  · simp only [BigEndianOrder.Bits, shiftRight3_eq, and7_eq, Grow_nil,
      List.take_replicate, Nat.min_self]
    rw [hr1]
    simp [List.length_replicate]
  · split <;> simp [hr2]
  · intro i hi
    by_cases hmask : w % 8 ≠ 0 ∧ i = (w + 7) / 8 - 1
    · rw [if_pos hmask, if_pos hmask.1, hmask.2,
        getD_set_eq _ (by omega), hr3 _ (by omega)]
    · rw [if_neg hmask]
      by_cases hm : w % 8 ≠ 0
      · have hne : (w + 7) / 8 - 1 ≠ i := by
          intro he
          exact hmask ⟨hm, he.symm⟩
        rw [if_pos hm, getD_set_ne _ hne, hr3 i hi]
      · rw [if_neg hm, hr3 i hi]

theorem cat_bytesOK {B : List Nat} (hok : bytesOK B) : bytesOK (B ++ zeroByte) := by
  intro v hv
  rcases List.mem_append.mp hv with h | h
  · exact hok v h
  · simp [zeroByte] at h
    omega

theorem raw_bit_high {a b obits q : Nat} (hb : b < 256)
    (hq1 : obits ≤ q) (hq2 : q < 8) :
    (shl8 a obits ||| b >>> (8 - obits)).testBit q = a.testBit (q - obits) := by
  rw [Nat.testBit_or, testBit_shl8, Nat.testBit_shiftRight]
  have hbf : b.testBit (8 - obits + q) = false :=
    Nat.testBit_lt_two_pow (lt_of_lt_of_le hb (by
      calc (256 : Nat) = 2 ^ 8 := two_pow_eight.symm
        _ ≤ 2 ^ (8 - obits + q) := Nat.pow_le_pow_right (by norm_num) (by omega)))
  rw [hbf]
  simp [hq1, hq2]

theorem raw_bit_low {a b obits q : Nat} (hq : q < obits) :
    (shl8 a obits ||| b >>> (8 - obits)).testBit q = b.testBit (8 - obits + q) := by
  rw [Nat.testBit_or, testBit_shl8, Nat.testBit_shiftRight]
  simp [show ¬(obits ≤ q) by omega]

theorem e2raw_lt {B : List Nat} (hok : bytesOK B) (o i : Nat) : e2raw B o i < 256 := by
  unfold e2raw
  split
  · exact bytesOK_getD (cat_bytesOK hok) _
  · exact lt256_or (shl8_lt _ _) (shr_lt256 _ (bytesOK_getD (cat_bytesOK hok) _))

theorem e2raw_bit_high {B : List Nat} (hok : bytesOK B) {o : Nat} (i : Nat) {q : Nat}
    (hob : o % 8 ≠ 0) (hq1 : o % 8 ≤ q) (hq2 : q < 8) :
    (e2raw B o i).testBit q = ((B ++ zeroByte).getD (o / 8 + i) 0).testBit (q - o % 8) := by
  unfold e2raw
  rw [if_neg hob]
  exact raw_bit_high (bytesOK_getD (cat_bytesOK hok) _) hq1 hq2

theorem testBit_mask8 {a b j : Nat} (hj : j < 8) :
    ((255 >>> a) &&& shl8 255 b).testBit j = (decide (a + j < 8) && decide (b ≤ j)) := by
  rw [Nat.testBit_and, Nat.testBit_shiftRight, testBit_255, testBit_shl8, testBit_255]
  by_cases h1 : a + j < 8 <;> by_cases h2 : b ≤ j <;>
    simp [h1, h2, hj, show j - b < 8 by omega]

theorem testBit_topmask {m q : Nat} :
    ((0xff00 >>> m) % 256).testBit q =
      (decide (q < 8) && (decide (8 ≤ m + q) && decide (m + q < 16))) := by
  rw [testBit_mod256, Nat.testBit_shiftRight,
    show (0xff00 : Nat) = 255 <<< 8 from rfl, Nat.testBit_shiftLeft, testBit_255]
  by_cases h1 : q < 8 <;> by_cases h2 : 8 ≤ m + q <;> by_cases h3 : m + q < 16 <;>
    simp [h1, h2, h3] <;> omega

/-- C1: for every byte-valued buffer `B` and every field `o`, `w` with
`o + w ≤ 8 * len B`, re-inserting the field extracted by `Bits` at the same
position is the identity: `SetBits(copy of B, Bits(B,o,w), o, w) = B`.
This holds even though `SetBits` leaves the middle and final bytes of a
non-aligned multi-byte field unwritten: every bit it fails to write already
holds `B`'s own value. -/
theorem C1_roundtrip (B : List Nat) (o w : Nat) (hok : bytesOK B)
    (how : o + w ≤ 8 * B.length) :
    (BigEndianOrder.Bits [] B o w).bind (fun x => BigEndianOrder.SetBits B x o w)
      = some B := by
  by_cases hw0 : w = 0
  · subst hw0
    obtain ⟨xr, hxr⟩ := Option.isSome_iff_exists.mp
      (@extract2_some_of_fits ([] : List Nat) B zeroByte o
        (by simp [zeroByte]; omega))
    have hxnil : xr = [] :=
      List.length_eq_zero.mp (by simpa using extract2_some_length hxr)
    subst hxnil
    have hbits : BigEndianOrder.Bits [] B o 0 = some [] := by
      simp only [BigEndianOrder.Bits, shiftRight3_eq, and7_eq, Grow_nil]
      norm_num
      rw [hxr]
    rw [hbits]
    show BigEndianOrder.SetBits B [] o 0 = some B
    simp only [BigEndianOrder.SetBits, shiftRight3_eq, and7_eq]
    rw [Grow_of_le (show (o + 0 + 7) / 8 ≤ B.length by omega)]
    simp
  · have hw : 1 ≤ w := by omega
    obtain ⟨x, hxeq, hxlen, hxval⟩ := bitsLeft_spec hw how
    rw [hxeq]
    show BigEndianOrder.SetBits B x o w = some B
    have hobB : o / 8 < B.length := by omega
    have hx0 : 0 < x.length := by omega
    simp only [BigEndianOrder.SetBits, shiftRight3_eq, and7_eq]
    rw [Grow_of_le (show (o + w + 7) / 8 ≤ B.length by omega)]
    rw [if_neg hw0]
    by_cases hSB : (o + w) / 8 = o / 8
    · -- start and end of the field share a byte: o % 8 + w ≤ 7 and the
      -- extraction is the single masked byte
      rw [if_pos hSB]
      have hwle : o % 8 + w ≤ 7 := by omega
      have hx0v := hxval 0 (by omega)
      rw [if_pos (by constructor <;> omega)] at hx0v
      rw [getElem?_eq_getD hobB, getElem?_eq_getD hx0]
      show some (B.set (o / 8) _) = some B
      have hbyte : andNot8 (B.getD (o / 8) 0)
            ((0xff >>> (o % 8)) &&& shl8 0xff (8 - (o + w) % 8)) |||
          ((x.getD 0 0 >>> (o % 8)) &&&
            ((0xff >>> (o % 8)) &&& shl8 0xff (8 - (o + w) % 8))) =
          B.getD (o / 8) 0 := by
        have hx0lt : x.getD 0 0 < 256 := by
          rw [hx0v]
          exact lt256_and_right _ (Nat.mod_lt _ (by norm_num))
        apply byte_ext
          (lt256_or (andNot8_lt _ (bytesOK_getD hok _))
            (lt256_and_left _ (shr_lt256 _ hx0lt)))
          (bytesOK_getD hok _)
        intro j hj
        rw [testBit_merge8 j hj, testBit_mask8 hj]
        by_cases hMj : o % 8 + j < 8 ∧ 8 - (o + w) % 8 ≤ j
        · rw [if_pos (by simp [hMj.1, hMj.2])]
          rw [Nat.testBit_shiftRight, hx0v, Nat.testBit_and, testBit_topmask]
          have htm : (decide (o % 8 + j < 8) &&
              (decide (8 ≤ w % 8 + (o % 8 + j)) && decide (w % 8 + (o % 8 + j) < 16)))
              = true := by
            simp
            omega
          rw [htm, Bool.and_true]
          by_cases hob : o % 8 = 0
          · unfold e2raw
            rw [if_pos hob, show o / 8 + 0 = o / 8 from by omega,
              getD_append_left _ hobB, hob, Nat.zero_add]
          · rw [e2raw_bit_high hok 0 hob (by omega) (by omega),
              show o / 8 + 0 = o / 8 from by omega, getD_append_left _ hobB]
            congr 1
            omega
        · rw [if_neg (by
            intro hc
            simp at hc
            exact hMj ⟨hc.1, by omega⟩)]
      rw [hbyte, set_getD_self]
    · rw [if_neg hSB]
      by_cases hob : o % 8 = 0
      · -- the field is byte-aligned: the copied bytes are B's own bytes and
        -- the masked tail byte merges back to B's byte
        rw [if_pos hob]
        have hlb : w / 8 ≤ x.length := by omega
        rw [if_pos hlb]
        have hwge : 8 ≤ w := by omega
        have hkB : o / 8 + w / 8 ≤ B.length := by omega
        have halen : (B.take (o / 8)).length = o / 8 := by
          rw [List.length_take]
          omega
        have hblen : ((x.take (w / 8)).take (B.length - o / 8)).length = w / 8 := by
          rw [List.length_take, List.length_take]
          omega
        have hxmid : ∀ i, i < w / 8 → x.getD i 0 = B.getD (o / 8 + i) 0 := by
          intro i hi
          have hv := hxval i (by omega)
          rw [if_neg (by
            intro hc
            omega)] at hv
          rw [hv]
          unfold e2raw
          rw [if_pos hob, getD_append_left _ (by omega)]
        have hz1len : (B.take (o / 8) ++ (x.take (w / 8)).take (B.length - o / 8)
            ++ B.drop (o / 8 + w / 8)).length = B.length := by
          rw [List.length_append, List.length_append, halen, hblen, List.length_drop]
          omega
        have hz1 : B.take (o / 8) ++ (x.take (w / 8)).take (B.length - o / 8)
            ++ B.drop (o / 8 + w / 8) = B := by
          apply list_eq_of_getD hz1len
          intro j hj
          rw [hz1len] at hj
          by_cases hj1 : j < o / 8
          · rw [getD_append_left _ (by rw [List.length_append, halen, hblen]; omega),
              getD_append_left _ (by omega), getD_take _ hj1]
          · by_cases hj2 : j < o / 8 + w / 8
            · rw [getD_append_left _ (by rw [List.length_append, halen, hblen]; omega),
                getD_append_right _ (by omega), halen,
                getD_take _ (by omega), getD_take _ (by omega),
                hxmid (j - o / 8) (by omega)]
              congr 1
              omega
            · rw [getD_append_right _ (by rw [List.length_append, halen, hblen]; omega),
                List.length_append, halen, hblen, getD_drop]
              congr 1
              omega
        rw [hz1]
        by_cases heb : 0 < (o + w) % 8
        · rw [if_pos heb]
          have hebw : (o + w) % 8 = w % 8 := by omega
          have hkBlt : o / 8 + w / 8 < B.length := by omega
          have hxl : w / 8 < x.length := by omega
          rw [getElem?_eq_getD hkBlt, getElem?_eq_getD hxl]
          show some (B.set (o / 8 + w / 8) _) = some B
          have hvl := hxval (w / 8) (by omega)
          rw [if_pos (by constructor <;> omega)] at hvl
          have hbyte : (B.getD (o / 8 + w / 8) 0 &&& (0xff >>> ((o + w) % 8))) |||
              andNot8 (x.getD (w / 8) 0) (0xff >>> ((o + w) % 8)) =
              B.getD (o / 8 + w / 8) 0 := by
            apply byte_ext
              (lt256_or (lt256_and_left _ (bytesOK_getD hok _))
                (andNot8_lt _ (by
                  rw [hvl]
                  exact lt256_and_right _ (Nat.mod_lt _ (by norm_num)))))
              (bytesOK_getD hok _)
            intro j hj
            rw [Nat.testBit_or, Nat.testBit_and, Nat.testBit_shiftRight, testBit_255,
              testBit_andNot8 j hj, Nat.testBit_shiftRight, testBit_255, hvl,
              Nat.testBit_and, testBit_topmask]
            have he2 : (e2raw B o (w / 8)).testBit j =
                (B.getD (o / 8 + w / 8) 0).testBit j := by
              unfold e2raw
              rw [if_pos hob, getD_append_left _ (by omega)]
            rw [he2]
            by_cases hc : (o + w) % 8 + j < 8
            · simp [hc]
            · simp [hc, hj, show 8 ≤ w % 8 + j by omega,
                show w % 8 + j < 16 by omega]
          rw [hbyte, set_getD_self]
        · rw [if_neg heb]
      · -- non-aligned field spanning several bytes: only the first partial
        -- byte is written, and it merges back to B's byte
        rw [if_neg hob]
        rw [getElem?_eq_getD hobB, getElem?_eq_getD hx0]
        show some (B.set (o / 8) _) = some B
        have hwge : 8 - o % 8 ≤ w := by omega
        have hx0lt : x.getD 0 0 < 256 := by
          have hv := hxval 0 (by omega)
          by_cases hm : w % 8 ≠ 0 ∧ 0 = (w + 7) / 8 - 1
          · rw [if_pos hm] at hv
            rw [hv]
            exact lt256_and_right _ (Nat.mod_lt _ (by norm_num))
          · rw [if_neg hm] at hv
            rw [hv]
            exact e2raw_lt hok o 0
        have hx0bit : ∀ j, o % 8 + j < 8 →
            (x.getD 0 0).testBit (o % 8 + j) = (B.getD (o / 8) 0).testBit j := by
          intro j hjo
          have hraw : (e2raw B o 0).testBit (o % 8 + j) =
              (B.getD (o / 8) 0).testBit j := by
            rw [e2raw_bit_high hok 0 hob (by omega) (by omega),
              show o / 8 + 0 = o / 8 from by omega, getD_append_left _ hobB]
            congr 1
            omega
          have hv := hxval 0 (by omega)
          by_cases hm : w % 8 ≠ 0 ∧ 0 = (w + 7) / 8 - 1
          · rw [if_pos hm] at hv
            rw [hv, Nat.testBit_and, testBit_topmask, hraw]
            have hw7 : w ≤ 7 := by
              rcases hm with ⟨hm1, hm2⟩
              omega
            have htm : (decide (o % 8 + j < 8) &&
                (decide (8 ≤ w % 8 + (o % 8 + j)) && decide (w % 8 + (o % 8 + j) < 16)))
                = true := by
              simp
              omega
            rw [htm, Bool.and_true]
          · rw [if_neg hm] at hv
            rw [hv, hraw]
        have hbyte : andNot8 (B.getD (o / 8) 0) (0xff >>> (o % 8)) |||
            (x.getD 0 0 >>> (o % 8)) = B.getD (o / 8) 0 := by
          apply byte_ext
            (lt256_or (andNot8_lt _ (bytesOK_getD hok _)) (shr_lt256 _ hx0lt))
            (bytesOK_getD hok _)
          intro j hj
          rw [Nat.testBit_or, testBit_andNot8 j hj, Nat.testBit_shiftRight, testBit_255,
            Nat.testBit_shiftRight]
          by_cases hjo : o % 8 + j < 8
          · rw [hx0bit j hjo]
            simp [hjo]
          · have hx0f : (x.getD 0 0).testBit (o % 8 + j) = false :=
              Nat.testBit_lt_two_pow (lt_of_lt_of_le hx0lt (by
                calc (256 : Nat) = 2 ^ 8 := two_pow_eight.symm
                  _ ≤ 2 ^ (o % 8 + j) := Nat.pow_le_pow_right (by norm_num) (by omega)))
            rw [hx0f]
            simp [hjo]
        rw [hbyte, set_getD_self]

/-- Closed instance of `C1_roundtrip` at a concrete buffer and field. -/
theorem C1_witness :
    (BigEndianOrder.Bits [] [171, 205, 239] 5 11).bind
      (fun x => BigEndianOrder.SetBits [171, 205, 239] x 5 11) = some [171, 205, 239] :=
  C1_roundtrip [171, 205, 239] 5 11 (by decide) (by decide)

/-! ### C2: bePut writes exactly the addressed bits -/

/-- A bit address below 8 reads the head byte of a cons. -/
theorem bitAt_cons_lt {c : Nat} (l : List Nat) {t : Nat} (ht : t < 8) :
    bitAt (c :: l) t = c.testBit (7 - t) := by
  unfold bitAt
  have h1 : t / 8 = 0 := by omega
  have h2 : t % 8 = t := by omega
  rw [h1, h2]
  rfl

/-- A bit address of 8 or more on a cons reads the tail, shifted by one byte. -/
theorem bitAt_cons_ge {c : Nat} (l : List Nat) {t : Nat} (ht : 8 ≤ t) :
    bitAt (c :: l) t = bitAt l (t - 8) := by
  unfold bitAt
  have h1 : t / 8 = (t - 8) / 8 + 1 := by omega
  have h2 : t % 8 = (t - 8) % 8 := by omega
  rw [h1, h2]
  rfl

/-- The bit-at-a-time put loop succeeds whenever the field fits, keeps the
length, copies the low `n` bits of `v` (big-endian) into positions
`[o, o+n)`, and leaves every other bit of the buffer unchanged. -/
theorem bePutLoop_spec (b : List Nat) : ∀ (o n v : Nat), o < 8 →
    o + n ≤ 8 * b.length →
    ∃ r e, bePutLoop b o n v = some (r, e) ∧ r.length = b.length ∧
      ∀ t, t < 8 * b.length →
        bitAt r t = if o ≤ t ∧ t < o + n then v.testBit (n - 1 - (t - o))
          else bitAt b t := by
  induction b with
  | nil =>
    intro o n v ho hb
    simp at hb
    have ho0 : o = 0 := by omega
    have hn0 : n = 0 := by omega
    subst ho0; subst hn0
    refine ⟨[], 0, by rw [bePutLoop]; simp, rfl, ?_⟩
    intro t ht
    simp at ht
  | cons b0 rest ih =>
    intro o n v ho hb
    rw [bePutLoop]
    rw [if_neg (by omega)]
    by_cases hn : n = 0
    · subst hn
      rw [if_pos rfl]
      refine ⟨b0 :: rest, o, rfl, rfl, ?_⟩
      intro t ht
      rw [if_neg (by omega)]
    · rw [if_neg hn]
      by_cases ho0 : o = 0
      · subst ho0
        by_cases h8 : 8 ≤ n
        · -- aligned, full byte: write (v >>> (n-8)) % 256 and recurse
          rw [if_pos h8]
          have hb' : 0 + (n - 8) ≤ 8 * rest.length := by
            simp at hb ⊢; omega
          obtain ⟨r', e', hr', hlen', hbit'⟩ := ih 0 (n - 8) v (by omega) hb'
          refine ⟨(v >>> (n - 8)) % 256 :: r', e', ?_, by simp [hlen'], ?_⟩
          · show (bePutLoop rest 0 (n - 8) v).map _ = _
            rw [hr']
            rfl
          · intro t ht
            by_cases ht8 : t < 8
            · rw [bitAt_cons_lt _ ht8, if_pos ⟨Nat.zero_le _, by omega⟩]
              rw [testBit_mod256, Nat.testBit_shiftRight,
                decide_eq_true (show 7 - t < 8 by omega), Bool.true_and]
              congr 1
              omega
            · push_neg at ht8
              rw [bitAt_cons_ge _ ht8, hbit' (t - 8) (by simp at ht ⊢; omega)]
              by_cases hc : t < n
              · rw [if_pos ⟨by omega, by omega⟩, if_pos ⟨Nat.zero_le _, by omega⟩]
                congr 1
                omega
              · rw [if_neg (by omega), if_neg (by omega), bitAt_cons_ge _ ht8]
        · -- aligned, final partial byte
          rw [if_neg h8]
          refine ⟨(shl8 v (8 - n) ||| (b0 &&& 255 >>> n)) :: rest, n, rfl, rfl, ?_⟩
          intro t ht
          by_cases ht8 : t < 8
          · rw [bitAt_cons_lt _ ht8, Nat.testBit_or, testBit_shl8,
              Nat.testBit_and, Nat.testBit_shiftRight, testBit_255]
            by_cases hc : t < n
            · rw [if_pos ⟨Nat.zero_le _, by omega⟩]
              simp only [decide_eq_true (show 7 - t < 8 by omega),
                decide_eq_true (show 8 - n ≤ 7 - t by omega),
                decide_eq_false (show ¬(n + (7 - t) < 8) by omega),
                Bool.true_and, Bool.and_false, Bool.or_false]
              congr 1
              omega
            · rw [if_neg (by omega), bitAt_cons_lt _ ht8]
              simp only [decide_eq_true (show 7 - t < 8 by omega),
                decide_eq_false (show ¬(8 - n ≤ 7 - t) by omega),
                decide_eq_true (show n + (7 - t) < 8 by omega),
                Bool.true_and, Bool.false_and, Bool.and_true, Bool.false_or]
          · push_neg at ht8
            rw [bitAt_cons_ge _ ht8, if_neg (by omega), bitAt_cons_ge _ ht8]
      · -- not byte-aligned
        rw [if_neg ho0]
        by_cases hr8 : 8 - o ≤ n
        · -- fill the rest of the current byte and recurse
          rw [if_pos hr8]
          have hb' : 0 + (n - (8 - o)) ≤ 8 * rest.length := by
            simp at hb ⊢; omega
          obtain ⟨r', e', hr', hlen', hbit'⟩ := ih 0 (n - (8 - o)) v (by omega) hb'
          refine ⟨(andNot8 b0 (255 >>> o) |||
              ((v >>> (n - (8 - o))) % 256 &&& 255 >>> o)) :: r', e', ?_,
              by simp [hlen'], ?_⟩
          · show (bePutLoop rest 0 (n - (8 - o)) v).map _ = _
            rw [hr']
            rfl
          · intro t ht
            by_cases ht8 : t < 8
            · rw [bitAt_cons_lt _ ht8, testBit_merge8 _ (by omega)]
              have hm : (255 >>> o).testBit (7 - t) = decide (o ≤ t) := by
                rw [Nat.testBit_shiftRight, testBit_255]
                by_cases hc : o ≤ t <;> simp [hc] <;> omega
              rw [hm]
              by_cases hc : o ≤ t
              · rw [decide_eq_true hc, if_pos rfl, if_pos ⟨hc, by omega⟩]
                rw [testBit_mod256, Nat.testBit_shiftRight,
                  decide_eq_true (show 7 - t < 8 by omega), Bool.true_and]
                congr 1
                omega
              · rw [decide_eq_false hc, if_neg, if_neg (by omega),
                  bitAt_cons_lt _ ht8]
                simp
            · push_neg at ht8
              rw [bitAt_cons_ge _ ht8, hbit' (t - 8) (by simp at ht ⊢; omega)]
              by_cases hc : t < o + n
              · rw [if_pos ⟨by omega, by omega⟩, if_pos ⟨by omega, hc⟩]
                congr 1
                omega
              · rw [if_neg (by omega), if_neg (by omega), bitAt_cons_ge _ ht8]
        · -- a strict sub-byte field inside the current byte
          rw [if_neg hr8]
          refine ⟨(andNot8 b0 (255 >>> o &&& shl8 255 (8 - o - n)) |||
              (shl8 v (8 - o - n) &&& (255 >>> o &&& shl8 255 (8 - o - n)))) :: rest,
              o + n, rfl, rfl, ?_⟩
          intro t ht
          by_cases ht8 : t < 8
          · rw [bitAt_cons_lt _ ht8, testBit_merge8 _ (by omega)]
            have hm : (255 >>> o &&& shl8 255 (8 - o - n)).testBit (7 - t) =
                decide (o ≤ t ∧ t < o + n) := by
              rw [Nat.testBit_and, Nat.testBit_shiftRight, testBit_255, testBit_shl8,
                testBit_255]
              by_cases hc1 : o ≤ t <;> by_cases hc2 : t < o + n <;>
                simp [hc1, hc2] <;> omega
            rw [hm]
            by_cases hc : o ≤ t ∧ t < o + n
            · rw [decide_eq_true hc, if_pos rfl, if_pos hc]
              rw [testBit_shl8,
                decide_eq_true (show 7 - t < 8 by omega),
                decide_eq_true (show 8 - o - n ≤ 7 - t by omega),
                Bool.true_and, Bool.true_and]
              congr 1
              omega
            · rw [decide_eq_false hc, if_neg, if_neg hc, bitAt_cons_lt _ ht8]
              simp
          · push_neg at ht8
            rw [bitAt_cons_ge _ ht8, if_neg (by omega), bitAt_cons_ge _ ht8]

/-- Dropping eight explicit head bytes shifts a default-get by eight. -/
theorem getD_cons8 (x0 x1 x2 x3 x4 x5 x6 x7 : Nat) (l : List Nat) (k : Nat) :
    (x0 :: x1 :: x2 :: x3 :: x4 :: x5 :: x6 :: x7 :: l).getD (k + 8) 0 = l.getD k 0 := rfl

/-- The 64-bit put primitive succeeds whenever the 64 bits fit, keeps the
length, copies the 64 bits of `v` (big-endian) into positions `[o, o+64)`,
and leaves every other bit unchanged. -/
theorem bePut64_spec (b : List Nat) (o v : Nat) (ho : o < 8) (hv : v < 2 ^ 64)
    (hf : o + 64 ≤ 8 * b.length) :
    ∃ r, bePut64 b o v = some r ∧ r.length = b.length ∧
      ∀ t, t < 8 * b.length →
        bitAt r t = if o ≤ t ∧ t < o + 64 then v.testBit (64 - 1 - (t - o))
          else bitAt b t := by
  by_cases ho0 : o = 0
  · subst ho0
    obtain ⟨b0, b1, b2, b3, b4, b5, b6, b7, rest, rfl⟩ :
        ∃ b0 b1 b2 b3 b4 b5 b6 b7 rest,
          b = b0 :: b1 :: b2 :: b3 :: b4 :: b5 :: b6 :: b7 :: rest := by
      rcases b with _|⟨b0,_|⟨b1,_|⟨b2,_|⟨b3,_|⟨b4,_|⟨b5,_|⟨b6,_|⟨b7,rest⟩⟩⟩⟩⟩⟩⟩⟩
      all_goals first
        | exact ⟨_, _, _, _, _, _, _, _, _, rfl⟩
        | (exfalso; simp at hf; try omega)
    refine ⟨(v >>> 56) % 256 :: (v >>> 48) % 256 :: (v >>> 40) % 256 ::
        (v >>> 32) % 256 :: (v >>> 24) % 256 :: (v >>> 16) % 256 ::
        (v >>> 8) % 256 :: v % 256 :: rest, rfl, by simp, ?_⟩
    intro t ht
    obtain ⟨k, j, hj, rfl⟩ : ∃ k j, j < 8 ∧ t = 8 * k + j :=
      ⟨t / 8, t % 8, by omega, by omega⟩
    rw [bitAt_byte _ _ _ hj, bitAt_byte _ _ _ hj]
    by_cases hk : k < 8
    · rw [if_pos ⟨Nat.zero_le _, by omega⟩]
      have hgd : ((v >>> 56) % 256 :: (v >>> 48) % 256 :: (v >>> 40) % 256 ::
          (v >>> 32) % 256 :: (v >>> 24) % 256 :: (v >>> 16) % 256 ::
          (v >>> 8) % 256 :: v % 256 :: rest).getD k 0 =
          (v >>> (56 - 8 * k)) % 256 := by
        interval_cases k <;> rfl
      rw [hgd, testBit_mod256, Nat.testBit_shiftRight,
        decide_eq_true (show 7 - j < 8 by omega), Bool.true_and]
      congr 1
      omega
    · rw [if_neg (by omega)]
      obtain ⟨k', rfl⟩ : ∃ k', k = k' + 8 := ⟨k - 8, by omega⟩
      rw [getD_cons8, getD_cons8]
  · obtain ⟨b0, b1, b2, b3, b4, b5, b6, b7, b8, rest, rfl⟩ :
        ∃ b0 b1 b2 b3 b4 b5 b6 b7 b8 rest,
          b = b0 :: b1 :: b2 :: b3 :: b4 :: b5 :: b6 :: b7 :: b8 :: rest := by
      rcases b with _|⟨b0,_|⟨b1,_|⟨b2,_|⟨b3,_|⟨b4,_|⟨b5,_|⟨b6,_|⟨b7,_|⟨b8,rest⟩⟩⟩⟩⟩⟩⟩⟩⟩
      all_goals first
        | exact ⟨_, _, _, _, _, _, _, _, _, _, rfl⟩
        | (exfalso; simp at hf; try omega)
    refine ⟨(andNot8 b0 (255 >>> o) ||| (v >>> (56 + o)) % 256) ::
        ((((v <<< (8 - o)) % 2 ^ 64) >>> 56) % 256) ::
        ((((v <<< (8 - o)) % 2 ^ 64) >>> 48) % 256) ::
        ((((v <<< (8 - o)) % 2 ^ 64) >>> 40) % 256) ::
        ((((v <<< (8 - o)) % 2 ^ 64) >>> 32) % 256) ::
        ((((v <<< (8 - o)) % 2 ^ 64) >>> 24) % 256) ::
        ((((v <<< (8 - o)) % 2 ^ 64) >>> 16) % 256) ::
        ((((v <<< (8 - o)) % 2 ^ 64) >>> 8) % 256) ::
        ((((v <<< (8 - o)) % 2 ^ 64) % 256) ||| (b8 &&& 255 >>> o)) :: rest, ?_, by simp, ?_⟩
    · show bePut64 _ o v = _
      rw [bePut64, if_neg ho0]
    · intro t ht
      obtain ⟨k, j, hj, rfl⟩ : ∃ k j, j < 8 ∧ t = 8 * k + j :=
        ⟨t / 8, t % 8, by omega, by omega⟩
      rw [bitAt_byte _ _ _ hj, bitAt_byte _ _ _ hj]
      by_cases hk0 : k = 0
      · subst hk0
        simp only [List.getD_cons_zero]
        rw [Nat.testBit_or, testBit_andNot8 _ (by omega), Nat.testBit_shiftRight,
          testBit_255, testBit_mod256, Nat.testBit_shiftRight]
        by_cases hc : o ≤ j
        · rw [if_pos ⟨by omega, by omega⟩]
          simp only [decide_eq_true (show o + (7 - j) < 8 by omega),
            decide_eq_true (show 7 - j < 8 by omega), Bool.not_true,
            Bool.and_false, Bool.true_and, Bool.false_or]
          congr 1
          omega
        · rw [if_neg (by omega)]
          have hvf : v.testBit (56 + o + (7 - j)) = false :=
            Nat.testBit_lt_two_pow (lt_of_lt_of_le hv
              (Nat.pow_le_pow_right (by norm_num) (by omega)))
          rw [hvf]
          simp [show ¬(o + (7 - j) < 8) by omega]
      · by_cases hk8 : k < 8
        · -- a middle byte, fully overwritten
          rw [if_pos ⟨by omega, by omega⟩]
          have hgd : ((andNot8 b0 (255 >>> o) ||| (v >>> (56 + o)) % 256) ::
              ((((v <<< (8 - o)) % 2 ^ 64) >>> 56) % 256) ::
              ((((v <<< (8 - o)) % 2 ^ 64) >>> 48) % 256) ::
              ((((v <<< (8 - o)) % 2 ^ 64) >>> 40) % 256) ::
              ((((v <<< (8 - o)) % 2 ^ 64) >>> 32) % 256) ::
              ((((v <<< (8 - o)) % 2 ^ 64) >>> 24) % 256) ::
              ((((v <<< (8 - o)) % 2 ^ 64) >>> 16) % 256) ::
              ((((v <<< (8 - o)) % 2 ^ 64) >>> 8) % 256) ::
              ((((v <<< (8 - o)) % 2 ^ 64) % 256) ||| (b8 &&& 255 >>> o)) :: rest).getD k 0 =
              ((((v <<< (8 - o)) % 2 ^ 64) >>> (64 - 8 * k)) % 256) := by
            interval_cases k
            · omega
            all_goals rfl
          rw [hgd, testBit_mod256, Nat.testBit_shiftRight, Nat.testBit_mod_two_pow,
            Nat.testBit_shiftLeft]
          simp only [decide_eq_true (show 7 - j < 8 by omega),
            decide_eq_true (show 64 - 8 * k + (7 - j) < 64 by omega),
            decide_eq_true (show 8 - o ≤ 64 - 8 * k + (7 - j) by omega),
            Bool.true_and]
          congr 1
          omega
        · obtain ⟨k', rfl⟩ : ∃ k', k = k' + 8 := ⟨k - 8, by omega⟩
          rw [getD_cons8, getD_cons8]
          by_cases hk'0 : k' = 0
          · subst hk'0
            simp only [List.getD_cons_zero]
            rw [Nat.testBit_or, testBit_mod256, Nat.testBit_mod_two_pow,
              Nat.testBit_shiftLeft, Nat.testBit_and, Nat.testBit_shiftRight,
              testBit_255]
            by_cases hc : j < o
            · rw [if_pos ⟨by omega, by omega⟩]
              simp only [decide_eq_true (show 7 - j < 8 by omega),
                decide_eq_true (show 7 - j < 64 by omega),
                decide_eq_true (show 8 - o ≤ 7 - j by omega),
                decide_eq_false (show ¬(o + (7 - j) < 8) by omega),
                Bool.true_and, Bool.and_false, Bool.or_false]
              congr 1
              omega
            · rw [if_neg (by omega)]
              simp only [decide_eq_false (show ¬(8 - o ≤ 7 - j) by omega),
                decide_eq_true (show o + (7 - j) < 8 by omega),
                Bool.and_false, Bool.false_and, Bool.and_true, Bool.false_or,
                Bool.and_true]
          · obtain ⟨k'', rfl⟩ : ∃ k'', k' = k'' + 1 := ⟨k' - 1, by omega⟩
            rw [if_neg (by omega), List.getD_cons_succ, List.getD_cons_succ]

/-- C2: for a byte slice `b`, bit offset `o` in 0-7, width `n ≤ 64` and a
64-bit value `v`, whenever the field fits, `bePut b o n v` writes the
least-significant `n` bits of `v` (big-endian) into bit positions
`[o, o+n)` and leaves every bit of `b` outside that range unchanged,
including the neighbouring bits of partially-touched boundary bytes. -/
theorem C2_bePut_frame (b : List Nat) (o n v : Nat) (ho : o < 8) (hn : n ≤ 64)
    (hv : v < 2 ^ 64) (hfit : o + n ≤ 8 * b.length) :
    ∃ r e, bePut b o n v = some (r, e) ∧ r.length = b.length ∧
      ∀ t, t < 8 * b.length →
        bitAt r t = if o ≤ t ∧ t < o + n then v.testBit (n - 1 - (t - o))
          else bitAt b t := by
  unfold bePut
  by_cases h64 : 64 ≤ n
  · have hn64 : n = 64 := by omega
    subst hn64
    rw [if_pos h64]
    obtain ⟨r, hr, hlen, hbit⟩ := bePut64_spec b o v ho hv hfit
    exact ⟨r, o, by rw [hr]; rfl, hlen, hbit⟩
  · rw [if_neg h64]
    exact bePutLoop_spec b o n v ho hfit

/-- Closed instance of `C2_bePut_frame`: a 7-bit write at offset 3 into a
3-byte buffer. -/
theorem C2_witness :
    ∃ r e, bePut [0, 255, 0] 3 7 85 = some (r, e) ∧ r.length = [0, 255, 0].length ∧
      ∀ t, t < 8 * [0, 255, 0].length →
        bitAt r t = if 3 ≤ t ∧ t < 3 + 7 then Nat.testBit 85 (7 - 1 - (t - 3))
          else bitAt [0, 255, 0] t :=
  C2_bePut_frame [0, 255, 0] 3 7 85 (by decide) (by decide) (by decide) (by decide)

/-! ### C4: whole-buffer rotation is a group action -/

/-- Decompose a bit address modulo the total bit width into byte and bit. -/
theorem mod8l (a j l : Nat) (hj : j < 8) (hl : 0 < l) :
    (8 * a + j) % (8 * l) = 8 * (a % l) + j := by
  have hd := Nat.div_add_mod a l
  have hr : a % l < l := Nat.mod_lt _ hl
  have h1 : 8 * a + j = (8 * (a % l) + j) + (a / l) * (8 * l) := by
    calc 8 * a + j = 8 * (l * (a / l) + a % l) + j := by rw [hd]
      _ = (8 * (a % l) + j) + (a / l) * (8 * l) := by ring
  rw [h1, Nat.add_mul_mod_self_right, Nat.mod_eq_of_lt (by omega)]

/-- A list is byte-valued as soon as all its default-gets are. -/
theorem bytesOK_of_getD {B : List Nat} (h : ∀ i, i < B.length → B.getD i 0 < 256) :
    bytesOK B := by
  intro v hv
  obtain ⟨i, hi, rfl⟩ := List.mem_iff_getElem.mp hv
  have hD := h i hi
  rwa [List.getD_eq_getElem?_getD, List.getElem?_eq_getElem hi] at hD

/-- Reading the rotation concatenation `src[d:] ++ src` at index `k` is
reading `src` at `(d + k) mod len src`. -/
theorem rotCat_getD (src : List Nat) {d k : Nat} (hd : d < src.length)
    (hk : k ≤ src.length) :
    ((src.drop d) ++ src).getD k 0 = src.getD ((d + k) % src.length) 0 := by
  rcases Nat.lt_or_ge k (src.length - d) with h | h
  · rw [getD_append_left _ (by rw [List.length_drop]; omega), getD_drop,
      Nat.mod_eq_of_lt (by omega)]
  · rw [getD_append_right _ (by rw [List.length_drop]; omega), List.length_drop]
    have hmod : (d + k) % src.length = d + k - src.length := by
      rw [Nat.mod_eq_sub_mod (by omega), Nat.mod_eq_of_lt (by omega)]
    rw [hmod]
    congr 1
    omega

/-- The truncated remainder lies in `(-M, 0]` for a negative dividend. -/
theorem tmod_bounds {n M : Int} (hM : 0 < M) (hn : n < 0) :
    -M < n.tmod M ∧ n.tmod M ≤ 0 := by
  have ha : (0 : Int) ≤ -n := by omega
  have h1 : n.tmod M = -((-n).tmod M) := by
    rw [Int.tmod_def, Int.tmod_def, Int.neg_tdiv]
    ring
  have h2 : (-n).tmod M = (-n) % M := Int.tmod_eq_emod ha (le_of_lt hM)
  have h3 : 0 ≤ (-n) % M := Int.emod_nonneg _ (by omega)
  have h4 : (-n) % M < M := Int.emod_lt_of_pos _ hM
  constructor <;> omega

/-- The right-rotation adjustment `M + tmod n M` is congruent to `n` mod `M`. -/
theorem tmod_congr (n M : Int) : (M + n.tmod M) % M = n % M := by
  rw [Int.tmod_def]
  have h : M + (n - M * n.tdiv M) = n + M * (1 - n.tdiv M) := by ring
  rw [h, Int.add_mul_emod_self_left]

/-- Transfer an integer congruence mod `M` to the natural shift amounts. -/
theorem toNat_emod_congr {M : Nat} (hM : 0 < M) {m : Nat} {n : Int}
    (h : (m : Int) % (M : Int) = n % (M : Int)) :
    m % M = (n % (M : Int)).toNat % M := by
  have h0 : (0 : Int) ≤ n % (M : Int) := Int.emod_nonneg n (by exact_mod_cast hM.ne')
  have h1 : ((n % (M : Int)).toNat : Int) = n % (M : Int) := Int.toNat_of_nonneg h0
  have h2 : (((m % M : Nat)) : Int) = (((n % (M : Int)).toNat % M : Nat) : Int) := by
    rw [Int.natCast_mod, Int.natCast_mod, h1, h, Int.emod_emod_of_dvd _ dvd_rfl]
  exact_mod_cast h2

/-- Congruent shift amounts rotate to the same source bit. -/
theorem shift_congr {src : List Nat} {M m e : Nat} (h : m % M = e % M) (t : Nat) :
    bitAt src ((t + m) % M) = bitAt src ((t + e) % M) := by
  rw [Nat.add_mod t m, h, ← Nat.add_mod]

/-- Shape of the descending small-left-rotate loop: position `i` holds the
head write, positions below hold carry-chained writes. -/
theorem rotlLoop_spec (src : List Nat) (n : Nat) : ∀ (i c : Nat),
    (rotlLoop src n i c).length = i + 1 ∧
    (rotlLoop src n i c).getD i 0 = (shl8 (src.getD i 0) n ||| c) ∧
    ∀ k, k < i → (rotlLoop src n i c).getD k 0 =
      (shl8 (src.getD k 0) n ||| src.getD (k + 1) 0 >>> (8 - n)) := by
  intro i
  induction i with
  | zero =>
    intro c
    exact ⟨rfl, rfl, fun k hk => absurd hk (by omega)⟩
  | succ i ih =>
    intro c
    obtain ⟨hlen, hhead, hrest⟩ := ih (src.getD (i + 1) 0 >>> (8 - n))
    refine ⟨?_, ?_, ?_⟩
    · show (rotlLoop src n i _ ++ [_]).length = _
      rw [List.length_append, hlen]
      rfl
    · show (rotlLoop src n i _ ++ [_]).getD (i + 1) 0 = _
      rw [getD_append_right _ (by omega), hlen]
      simp
    · intro k hk
      show (rotlLoop src n i _ ++ [_]).getD k 0 = _
      rw [getD_append_left _ (by omega)]
      rcases Nat.lt_or_ge k i with h | h
      · exact hrest k h
      · have hk_eq : k = i := by omega
        subst hk_eq
        exact hhead

/-- Shape of the ascending small-right-rotate loop. -/
theorem rotrLoop_spec (src : List Nat) (n : Nat) : ∀ (fuel i c : Nat),
    (rotrLoop src n i c fuel).length = fuel ∧
    ∀ k, k < fuel → (rotrLoop src n i c fuel).getD k 0 =
      (src.getD (i + k) 0 >>> n |||
        (if k = 0 then c else shl8 (src.getD (i + k - 1) 0) (8 - n))) := by
  intro fuel
  induction fuel with
  | zero =>
    intro i c
    exact ⟨rfl, fun k hk => absurd hk (by omega)⟩
  | succ fuel ih =>
    intro i c
    obtain ⟨hlen, hval⟩ := ih (i + 1) (shl8 (src.getD i 0) (8 - n))
    refine ⟨?_, ?_⟩
    · show ((_ ||| _) :: rotrLoop src n (i + 1) _ fuel).length = _
      rw [List.length_cons, hlen]
    · intro k hk
      match k with
      | 0 =>
        show ((_ ||| _) :: _).getD 0 0 = _
        simp
      | k + 1 =>
        show ((_ ||| _) :: _).getD (k + 1) 0 = _
        rw [List.getD_cons_succ, hval k (by omega)]
        rcases Nat.eq_zero_or_pos k with rfl | hpos
        · simp
        · rw [if_neg (by omega), if_neg (by omega)]
          have h1 : i + 1 + k = i + (k + 1) := by omega
          rw [h1]

/-- The small left rotation loop (`0 < m ≤ 8`) realizes a left rotation by
`m` bits: bit `t` of the result is bit `(t + m) mod 8l` of the source. -/
theorem smallLeft_bits {src : List Nat} (hok : bytesOK src) {m : Nat}
    (hm1 : 1 ≤ m) (hm8 : m ≤ 8) (hl : 0 < src.length) :
    (rotlLoop src m (src.length - 1) (src.getD 0 0 >>> (8 - m))).length = src.length ∧
    bytesOK (rotlLoop src m (src.length - 1) (src.getD 0 0 >>> (8 - m))) ∧
    ∀ t, t < 8 * src.length →
      bitAt (rotlLoop src m (src.length - 1) (src.getD 0 0 >>> (8 - m))) t =
        bitAt src ((t + m) % (8 * src.length)) := by
  obtain ⟨hlen, hhead, hrest⟩ :=
    rotlLoop_spec src m (src.length - 1) (src.getD 0 0 >>> (8 - m))
  have hlen' : (rotlLoop src m (src.length - 1) (src.getD 0 0 >>> (8 - m))).length
      = src.length := by omega
  have hbyte : ∀ i, i < src.length →
      (rotlLoop src m (src.length - 1) (src.getD 0 0 >>> (8 - m))).getD i 0 =
        (shl8 (src.getD i 0) m ||| src.getD ((i + 1) % src.length) 0 >>> (8 - m)) := by
    intro i hi
    rcases Nat.lt_or_ge i (src.length - 1) with h | h
    · rw [hrest i h, Nat.mod_eq_of_lt (by omega)]
    · have hi_eq : i = src.length - 1 := by omega
      subst hi_eq
      rw [hhead, show src.length - 1 + 1 = src.length by omega, Nat.mod_self]
  refine ⟨hlen', bytesOK_of_getD (fun i hi => ?_), ?_⟩
  · rw [hbyte i (by omega)]
    exact lt256_or (shl8_lt _ _) (shr_lt256 _ (bytesOK_getD hok _))
  · intro t ht
    obtain ⟨i, j, hj, rfl⟩ : ∃ i j, j < 8 ∧ t = 8 * i + j :=
      ⟨t / 8, t % 8, by omega, by omega⟩
    have hi : i < src.length := by omega
    rw [bitAt_byte _ _ _ hj, hbyte i hi]
    by_cases hm8' : m = 8
    · subst hm8'
      have h0 : shl8 (src.getD i 0) 8 = 0 := by
        simp [shl8, Nat.shiftLeft_eq, Nat.mul_mod_left]
      rw [h0, Nat.zero_or, Nat.sub_self, Nat.shiftRight_zero,
        show 8 * i + j + 8 = 8 * (i + 1) + j by omega, mod8l _ _ _ hj hl,
        bitAt_byte _ _ _ hj]
    · by_cases hc : j < 8 - m
      · rw [raw_bit_high (bytesOK_getD hok _) (by omega) (by omega),
          Nat.mod_eq_of_lt (by omega),
          show 8 * i + j + m = 8 * i + (j + m) by omega,
          bitAt_byte _ _ _ (by omega)]
        congr 1
        omega
      · rw [raw_bit_low (by omega),
          show 8 * i + j + m = 8 * (i + 1) + (j + m - 8) by omega,
          mod8l _ _ _ (by omega) hl, bitAt_byte _ _ _ (by omega)]
        congr 1
        omega

/-- Bit values of a right-rotation byte `shl8 a (8-m) ||| b >>> m`: the
high `m` bits come from the carry byte `a`. -/
theorem rawR_bit_high {a b m q : Nat} (hm : m ≤ 8) (hb : b < 256)
    (hq1 : 8 - m ≤ q) (hq2 : q < 8) :
    (shl8 a (8 - m) ||| b >>> m).testBit q = a.testBit (q - (8 - m)) := by
  have h : b >>> m = b >>> (8 - (8 - m)) := by congr 1; omega
  rw [h]
  exact raw_bit_high hb hq1 hq2

/-- Bit values of a right-rotation byte: the low `8-m` bits come from the
current byte `b`, shifted down by `m`. -/
theorem rawR_bit_low {a b m q : Nat} (hm : m ≤ 8) (hq : q < 8 - m) :
    (shl8 a (8 - m) ||| b >>> m).testBit q = b.testBit (m + q) := by
  have h : b >>> m = b >>> (8 - (8 - m)) := by congr 1; omega
  rw [h, raw_bit_low hq]
  congr 1
  omega

/-- The small right rotation loop (`0 < m ≤ 8`) realizes a left rotation by
`8l - m` bits. -/
theorem smallRight_bits {src : List Nat} (hok : bytesOK src) {m : Nat}
    (hm1 : 1 ≤ m) (hm8 : m ≤ 8) (hl : 0 < src.length) :
    (rotrLoop src m 0 (shl8 (src.getD (src.length - 1) 0) (8 - m)) src.length).length
      = src.length ∧
    bytesOK (rotrLoop src m 0 (shl8 (src.getD (src.length - 1) 0) (8 - m)) src.length) ∧
    ∀ t, t < 8 * src.length →
      bitAt (rotrLoop src m 0 (shl8 (src.getD (src.length - 1) 0) (8 - m)) src.length) t =
        bitAt src ((t + (8 * src.length - m)) % (8 * src.length)) := by
  obtain ⟨hlen, hval⟩ :=
    rotrLoop_spec src m src.length 0 (shl8 (src.getD (src.length - 1) 0) (8 - m))
  have hbyte : ∀ i, i < src.length →
      (rotrLoop src m 0 (shl8 (src.getD (src.length - 1) 0) (8 - m)) src.length).getD i 0 =
        (shl8 (src.getD ((i + src.length - 1) % src.length) 0) (8 - m) |||
          src.getD i 0 >>> m) := by
    intro i hi
    rw [hval i hi, Nat.or_comm]
    rcases Nat.eq_zero_or_pos i with rfl | hpos
    · rw [if_pos rfl, Nat.zero_add,
        show (0 + src.length - 1) % src.length = src.length - 1 by
          rw [Nat.zero_add, Nat.mod_eq_of_lt (by omega)]]
    · rw [if_neg (by omega), Nat.zero_add,
        show (i + src.length - 1) % src.length = i - 1 by
          rw [show i + src.length - 1 = (i - 1) + 1 * src.length by omega,
            Nat.add_mul_mod_self_right, Nat.mod_eq_of_lt (by omega)]]
  refine ⟨hlen, bytesOK_of_getD (fun i hi => ?_), ?_⟩
  · rw [hbyte i (by omega)]
    exact lt256_or (shl8_lt _ _) (shr_lt256 _ (bytesOK_getD hok _))
  · intro t ht
    obtain ⟨i, j, hj, rfl⟩ : ∃ i j, j < 8 ∧ t = 8 * i + j :=
      ⟨t / 8, t % 8, by omega, by omega⟩
    have hi : i < src.length := by omega
    rw [bitAt_byte _ _ _ hj, hbyte i hi]
    by_cases hc : j < m
    · -- the bit comes from the previous byte via the carry
      rw [rawR_bit_high hm8 (bytesOK_getD hok _) (by omega) (by omega),
        show 8 * i + j + (8 * src.length - m) =
          8 * (i + src.length - 1) + (j + 8 - m) by omega,
        mod8l _ _ _ (by omega) hl, bitAt_byte _ _ _ (by omega)]
      congr 1
      omega
    · rw [rawR_bit_low hm8 (by omega),
        show 8 * i + j + (8 * src.length - m) =
          (8 * i + (j - m)) + 8 * src.length * 1 by omega,
        Nat.add_mul_mod_self_left, Nat.mod_eq_of_lt (by omega),
        bitAt_byte _ _ _ (by omega)]
      congr 1
      omega

/-- The `extract2` path of the whole-buffer rotation realizes a left
rotation by `m` bits, for any natural `m`. -/
theorem largeLeft_bits {src : List Nat} (hok : bytesOK src) (m : Nat)
    (hl : 0 < src.length) :
    ∃ r, extract2 (List.replicate src.length 0)
        (src.drop ((m >>> 3) % src.length)) src (m &&& 7) = some r ∧
      r.length = src.length ∧ bytesOK r ∧
      ∀ t, t < 8 * src.length →
        bitAt r t = bitAt src ((t + m) % (8 * src.length)) := by
  have hd : (m >>> 3) % src.length < src.length := Nat.mod_lt _ hl
  have hdq : (m >>> 3) % src.length = (m / 8) % src.length := by
    rw [shiftRight3_eq]
  have hcat : ∀ k, k ≤ src.length →
      ((src.drop ((m >>> 3) % src.length)) ++ src).getD k 0 =
        src.getD ((m / 8 + k) % src.length) 0 := by
    intro k hk
    rw [rotCat_getD src hd hk, hdq, Nat.mod_add_mod]
  rw [and7_eq]
  by_cases hob : m % 8 % 8 = 0
  · obtain ⟨r, hr, hrlen, hval⟩ := extract2_bytes_aligned
      (z := List.replicate src.length 0) (x := src.drop ((m >>> 3) % src.length))
      (y := src) hob
      (by rw [List.length_replicate, List.length_drop]; omega)
    have hrlen' : r.length = src.length := by simpa using hrlen
    have hbyte : ∀ i, i < src.length →
        r.getD i 0 = src.getD ((m / 8 + i) % src.length) 0 := by
      intro i hi
      rw [hval i (by simpa using hi), show m % 8 / 8 = 0 by omega, Nat.zero_add,
        hcat i (by omega)]
    refine ⟨r, hr, hrlen', bytesOK_of_getD (fun i hi => ?_), ?_⟩
    · rw [hbyte i (by omega)]
      exact bytesOK_getD hok _
    · intro t ht
      obtain ⟨i, j, hj, rfl⟩ : ∃ i j, j < 8 ∧ t = 8 * i + j :=
        ⟨t / 8, t % 8, by omega, by omega⟩
      have hi : i < src.length := by omega
      rw [bitAt_byte _ _ _ hj, hbyte i hi,
        show 8 * i + j + m = 8 * (m / 8 + i) + j by omega,
        mod8l _ _ _ hj hl, bitAt_byte _ _ _ hj]
  · obtain ⟨r, hr, hrlen, hval⟩ := extract2_bytes_na
      (z := List.replicate src.length 0) (x := src.drop ((m >>> 3) % src.length))
      (y := src) hob
      (by rw [List.length_replicate, List.length_drop]; omega)
    have hrlen' : r.length = src.length := by simpa using hrlen
    have hbyte : ∀ i, i < src.length →
        r.getD i 0 = (shl8 (src.getD ((m / 8 + i) % src.length) 0) (m % 8) |||
          src.getD ((m / 8 + i + 1) % src.length) 0 >>> (8 - m % 8)) := by
      intro i hi
      rw [hval i (by simpa using hi), show m % 8 / 8 = 0 by omega, Nat.zero_add,
        show m % 8 % 8 = m % 8 by omega, hcat i (by omega), hcat (i + 1) (by omega),
        show m / 8 + (i + 1) = m / 8 + i + 1 by omega]
    refine ⟨r, hr, hrlen', bytesOK_of_getD (fun i hi => ?_), ?_⟩
    · rw [hbyte i (by omega)]
      exact lt256_or (shl8_lt _ _) (shr_lt256 _ (bytesOK_getD hok _))
    · intro t ht
      obtain ⟨i, j, hj, rfl⟩ : ∃ i j, j < 8 ∧ t = 8 * i + j :=
        ⟨t / 8, t % 8, by omega, by omega⟩
      have hi : i < src.length := by omega
      rw [bitAt_byte _ _ _ hj, hbyte i hi]
      by_cases hc : j < 8 - m % 8
      · rw [raw_bit_high (bytesOK_getD hok _) (by omega) (by omega),
          show 8 * i + j + m = 8 * (m / 8 + i) + (j + m % 8) by omega,
          mod8l _ _ _ (by omega) hl, bitAt_byte _ _ _ (by omega)]
        congr 1
        omega
      · rw [raw_bit_low (by omega),
          show 8 * i + j + m = 8 * (m / 8 + i + 1) + (j + m % 8 - 8) by omega,
          mod8l _ _ _ (by omega) hl, bitAt_byte _ _ _ (by omega)]
        congr 1
        omega

/-- Case analysis of the whole-buffer rotation body after the right-rotation
adjustment: every branch realizes a left rotation by `N mod 8l` bits. -/
theorem rotateAdjusted_spec (src : List Nat) (N : Int) (hok : bytesOK src)
    (hl : 0 < src.length) (hN8 : -8 ≤ N) :
    ∃ r,
      (if 8 < N then
        Option.map (fun r => r ++ List.drop src.length (mk [] src.length))
          (extract2 (List.take src.length (mk [] src.length))
            (List.drop (N.toNat >>> 3 % src.length) src) src (N.toNat &&& 7))
      else if N = 0 then some (src ++ List.drop src.length (mk [] src.length))
      else if 0 < N then
        some (rotlLoop src N.toNat (src.length - 1)
            (src.getD 0 0 >>> (8 - N.toNat)) ++ List.drop src.length (mk [] src.length))
      else if -8 ≤ N then
        some (rotrLoop src (-N).toNat 0
            (shl8 (src.getD (src.length - 1) 0) (8 - (-N).toNat)) src.length ++
          List.drop src.length (mk [] src.length))
      else some (mk [] src.length)) = some r ∧
      r.length = src.length ∧ bytesOK r ∧
      ∀ t, t < 8 * src.length →
        bitAt r t =
          bitAt src ((t + (N % ((8 * src.length : Nat) : Int)).toNat) % (8 * src.length)) := by
  have hM : 0 < 8 * src.length := by omega
  have hmk : mk [] src.length = List.replicate src.length 0 := by
    unfold mk
    rw [if_pos (by simpa using hl)]
  have htake : List.take src.length (mk [] src.length) = List.replicate src.length 0 := by
    rw [hmk, List.take_replicate, Nat.min_self]
  have hdrop : List.drop src.length (mk [] src.length) = [] := by
    rw [hmk, List.drop_replicate, Nat.sub_self]
    rfl
  by_cases h8 : 8 < N
  · rw [if_pos h8, htake, hdrop]
    obtain ⟨r, hr, hlen, hokr, hbit⟩ := largeLeft_bits hok N.toNat hl
    refine ⟨r, ?_, hlen, hokr, ?_⟩
    · rw [hr]
      simp
    · intro t ht
      rw [hbit t ht]
      refine shift_congr (toNat_emod_congr hM ?_) t
      rw [Int.toNat_of_nonneg (by omega : (0 : Int) ≤ N)]
  · rw [if_neg h8]
    by_cases h0 : N = 0
    · rw [if_pos h0, hdrop, List.append_nil]
      refine ⟨src, rfl, rfl, hok, ?_⟩
      intro t ht
      subst h0
      rw [Int.zero_emod]
      show bitAt src t = bitAt src ((t + (0 : Int).toNat) % (8 * src.length))
      rw [Int.toNat_zero, Nat.add_zero, Nat.mod_eq_of_lt ht]
    · rw [if_neg h0]
      by_cases hpos : 0 < N
      · rw [if_pos hpos, hdrop, List.append_nil]
        obtain ⟨hlen, hokr, hbit⟩ := smallLeft_bits hok
          (m := N.toNat) (by omega) (by omega) hl
        refine ⟨_, rfl, hlen, hokr, ?_⟩
        intro t ht
        rw [hbit t ht]
        refine shift_congr (toNat_emod_congr hM ?_) t
        rw [Int.toNat_of_nonneg (by omega : (0 : Int) ≤ N)]
      · rw [if_neg hpos, if_pos hN8, hdrop, List.append_nil]
        obtain ⟨hlen, hokr, hbit⟩ := smallRight_bits hok
          (m := (-N).toNat) (by omega) (by omega) hl
        refine ⟨_, rfl, hlen, hokr, ?_⟩
        intro t ht
        rw [hbit t ht]
        refine shift_congr (toNat_emod_congr hM ?_) t
        have hm8 : (-N).toNat ≤ 8 := by omega
        have hmM : (-N).toNat ≤ 8 * src.length := by omega
        rw [Nat.cast_sub hmM]
        have hcast : (((-N).toNat : Int)) = -N := Int.toNat_of_nonneg (by omega)
        rw [hcast]
        have harith : ((8 * src.length : Nat) : Int) - -N =
            N + ((8 * src.length : Nat) : Int) * 1 := by ring
        rw [harith, Int.add_mul_emod_self_left]

/-- Whole-buffer `BigEndianBits.RotateLeft` into a fresh destination: it
always succeeds, preserves length and byte-ness, and bit `t` of the result
is bit `(t + n) mod 8l` of the source. -/
theorem rotateBits_spec (src : List Nat) (n : Int) (hok : bytesOK src) :
    ∃ r, BigEndianBits.RotateLeft [] src n = some r ∧ r.length = src.length ∧
      bytesOK r ∧
      ∀ t, t < 8 * src.length →
        bitAt r t =
          bitAt src ((t + (n % ((8 * src.length : Nat) : Int)).toNat) % (8 * src.length)) := by
  by_cases hl0 : src.length = 0
  · refine ⟨[], ?_, by rw [hl0]; rfl, fun v hv => absurd hv (by simp),
      fun t ht => by omega⟩
    simp only [BigEndianBits.RotateLeft]
    rw [if_pos hl0]
  · have hl : 0 < src.length := by omega
    have hM : 0 < 8 * src.length := by omega
    simp only [BigEndianBits.RotateLeft]
    rw [if_neg hl0]
    by_cases hadj : n < -8
    · simp only [if_pos hadj]
      have hMI : (0 : Int) < 8 * (src.length : Int) := by exact_mod_cast hM
      obtain ⟨hb1, hb2⟩ := tmod_bounds hMI (by omega : n < 0)
      obtain ⟨r, hr, h1, h2, h3⟩ := rotateAdjusted_spec src
        (8 * (src.length : Int) + n.tmod (8 * (src.length : Int))) hok hl (by omega)
      have hNn : (8 * (src.length : Int) + n.tmod (8 * (src.length : Int)))
          % ((8 * src.length : Nat) : Int) = n % ((8 * src.length : Nat) : Int) := by
        have hc : ((8 * src.length : Nat) : Int) = 8 * (src.length : Int) := by
          push_cast
          ring
        rw [hc]
        exact tmod_congr n _
      rw [hNn] at h3
      exact ⟨r, hr, h1, h2, h3⟩
    · simp only [if_neg hadj]
      exact rotateAdjusted_spec src n hok hl (by omega)

/-- Composing two fresh-destination rotations accumulates the two reduced
shift amounts. -/
theorem rotate_twice (B : List Nat) (hok : bytesOK B) (n1 n2 : Int) :
    ∃ r1 r12, BigEndianBits.RotateLeft [] B n1 = some r1 ∧
      BigEndianBits.RotateLeft [] r1 n2 = some r12 ∧
      r12.length = B.length ∧ bytesOK r12 ∧
      ∀ t, t < 8 * B.length → bitAt r12 t =
        bitAt B ((t + ((n2 % ((8 * B.length : Nat) : Int)).toNat
          + (n1 % ((8 * B.length : Nat) : Int)).toNat)) % (8 * B.length)) := by
  obtain ⟨r1, h1, hlen1, hok1, hbit1⟩ := rotateBits_spec B n1 hok
  obtain ⟨r12, h2, hlen2, hok2, hbit2⟩ := rotateBits_spec r1 n2 hok1
  rw [hlen1] at hbit2 hlen2
  refine ⟨r1, r12, h1, h2, hlen2, hok2, ?_⟩
  intro t ht
  have hM : 0 < 8 * B.length := by omega
  rw [hbit2 t ht, hbit1 _ (Nat.mod_lt _ hM), Nat.mod_add_mod, Nat.add_assoc]

/-- C4: whole-buffer `RotateLeft` into fresh destinations is a group action
of the integers modulo the total bit width: rotating by `n1` then `n2`
equals rotating by `n1 + n2`; rotating by 0 is the identity; rotating by
`n1` then `-n1` is the identity; rotation of the empty buffer is a no-op. -/
theorem C4_rotate_group (B : List Nat) (n1 n2 : Int) (hok : bytesOK B) :
    (∃ r1 r12 r2, BigEndianBits.RotateLeft [] B n1 = some r1 ∧
      BigEndianBits.RotateLeft [] r1 n2 = some r12 ∧
      BigEndianBits.RotateLeft [] B (n1 + n2) = some r2 ∧ r12 = r2) ∧
    BigEndianBits.RotateLeft [] B 0 = some B ∧
    (∃ r r', BigEndianBits.RotateLeft [] B n1 = some r ∧
      BigEndianBits.RotateLeft [] r (-n1) = some r' ∧ r' = B) ∧
    BigEndianBits.RotateLeft [] ([] : List Nat) n1 = some [] := by
  have hMcast : ∀ t, t < 8 * B.length → 0 < 8 * B.length := fun t ht => by omega
  refine ⟨?_, ?_, ?_, ?_⟩
  · -- composition
    obtain ⟨r1, r12, h1, h2, hlen12, hok12, hbit12⟩ := rotate_twice B hok n1 n2
    obtain ⟨r2, h12, hlen2, hok2, hbit2⟩ := rotateBits_spec B (n1 + n2) hok
    refine ⟨r1, r12, r2, h1, h2, h12, ?_⟩
    apply buffer_ext hok12 hok2 (by omega)
    intro t ht'
    have ht : t < 8 * B.length := by omega
    have hM : 0 < 8 * B.length := by omega
    have hMne : ((8 * B.length : Nat) : Int) ≠ 0 := by exact_mod_cast hM.ne'
    rw [hbit12 t ht, hbit2 t ht]
    apply shift_congr _ t
    have h2n : (((n2 % ((8 * B.length : Nat) : Int)).toNat : Nat) : Int)
        = n2 % ((8 * B.length : Nat) : Int) :=
      Int.toNat_of_nonneg (Int.emod_nonneg _ hMne)
    have h1n : (((n1 % ((8 * B.length : Nat) : Int)).toNat : Nat) : Int)
        = n1 % ((8 * B.length : Nat) : Int) :=
      Int.toNat_of_nonneg (Int.emod_nonneg _ hMne)
    have h12n : ((((n1 + n2) % ((8 * B.length : Nat) : Int)).toNat : Nat) : Int)
        = (n1 + n2) % ((8 * B.length : Nat) : Int) :=
      Int.toNat_of_nonneg (Int.emod_nonneg _ hMne)
    have hcast : (((n2 % ((8 * B.length : Nat) : Int)).toNat
          + (n1 % ((8 * B.length : Nat) : Int)).toNat) % (8 * B.length) : Nat)
        = (((n1 + n2) % ((8 * B.length : Nat) : Int)).toNat % (8 * B.length) : Nat) := by
      have hInt : ((((n2 % ((8 * B.length : Nat) : Int)).toNat
            + (n1 % ((8 * B.length : Nat) : Int)).toNat) % (8 * B.length) : Nat) : Int)
          = ((((n1 + n2) % ((8 * B.length : Nat) : Int)).toNat % (8 * B.length) : Nat) : Int) := by
        rw [Int.natCast_mod, Int.natCast_mod, Nat.cast_add, h2n, h1n, h12n,
          Int.emod_emod_of_dvd _ dvd_rfl, ← Int.add_emod, Int.add_comm n2 n1]
      exact_mod_cast hInt
    exact hcast
  · -- identity
    obtain ⟨r, hr, hlen, hokr, hbit⟩ := rotateBits_spec B 0 hok
    have hrB : r = B := by
      apply buffer_ext hokr hok (by omega)
      intro t ht'
      have ht : t < 8 * B.length := by omega
      rw [hbit t ht, Int.zero_emod, Int.toNat_zero, Nat.add_zero, Nat.mod_eq_of_lt ht]
    rw [hrB] at hr
    exact hr
  · -- inverse
    obtain ⟨r, r', h1, h2, hlen', hok', hbit'⟩ := rotate_twice B hok n1 (-n1)
    refine ⟨r, r', h1, h2, ?_⟩
    apply buffer_ext hok' hok (by omega)
    intro t ht'
    have ht : t < 8 * B.length := by omega
    have hM : 0 < 8 * B.length := by omega
    have hMne : ((8 * B.length : Nat) : Int) ≠ 0 := by exact_mod_cast hM.ne'
    rw [hbit' t ht]
    have hzero : ((-n1 % ((8 * B.length : Nat) : Int)).toNat
        + (n1 % ((8 * B.length : Nat) : Int)).toNat) % (8 * B.length) = 0 := by
      have hInt : (((((-n1) % ((8 * B.length : Nat) : Int)).toNat
            + (n1 % ((8 * B.length : Nat) : Int)).toNat) % (8 * B.length) : Nat) : Int)
          = (0 : Int) := by
        rw [Int.natCast_mod, Nat.cast_add,
          Int.toNat_of_nonneg (Int.emod_nonneg _ hMne),
          Int.toNat_of_nonneg (Int.emod_nonneg _ hMne),
          ← Int.add_emod]
        simp
      exact_mod_cast hInt
    rw [shift_congr (e := 0) (by rw [hzero]; simp) t, Nat.add_zero,
      Nat.mod_eq_of_lt ht]
  · -- empty buffer
    rfl

/-- Closed instance of `C4_rotate_group` at a concrete buffer and rotation
amounts. -/
theorem C4_witness :
    (∃ r1 r12 r2, BigEndianBits.RotateLeft [] [171, 205] 13 = some r1 ∧
      BigEndianBits.RotateLeft [] r1 (-5) = some r12 ∧
      BigEndianBits.RotateLeft [] [171, 205] (13 + -5) = some r2 ∧ r12 = r2) ∧
    BigEndianBits.RotateLeft [] [171, 205] 0 = some [171, 205] ∧
    (∃ r r', BigEndianBits.RotateLeft [] [171, 205] 13 = some r ∧
      BigEndianBits.RotateLeft [] r (-13) = some r' ∧ r' = [171, 205]) ∧
    BigEndianBits.RotateLeft [] ([] : List Nat) 13 = some [] :=
  C4_rotate_group [171, 205] 13 (-5) (by decide)

/-! ### C8: the two whole-buffer rotation implementations agree -/

/-- A byte value has no bits at positions 8 and above. -/
theorem testBit_byte_high {x : Nat} (hx : x < 256) {q : Nat} (hq : 8 ≤ q) :
    x.testBit q = false :=
  Nat.testBit_lt_two_pow (lt_of_lt_of_le hx (le_trans (by norm_num)
    (Nat.pow_le_pow_right (by norm_num) hq)))

/-- Reading a dropped list is reading the original list further on. -/
theorem bitAt_drop (L : List Nat) (k i : Nat) :
    bitAt (L.drop k) i = bitAt L (8 * k + i) := by
  unfold bitAt
  rw [getD_drop, show (8 * k + i) / 8 = k + i / 8 by omega,
    show (8 * k + i) % 8 = i % 8 by omega]

/-- Reading past a prefix of an append is reading the suffix. -/
theorem bitAt_append_right (A B : List Nat) (i : Nat) :
    bitAt (A ++ B) (8 * A.length + i) = bitAt B i := by
  unfold bitAt
  rw [show (8 * A.length + i) / 8 = A.length + i / 8 by omega,
    getD_append_right _ (by omega), show (8 * A.length + i) % 8 = i % 8 by omega,
    show A.length + i / 8 - A.length = i / 8 by omega]

/-- Reading inside a take is reading the original. -/
theorem bitAt_take (L : List Nat) {k i : Nat} (h : i < 8 * k) :
    bitAt (L.take k) i = bitAt L i := by
  unfold bitAt
  rw [getD_take _ (by omega)]

/-- Bit `q` of the assembled big-endian 64-bit word of eight bytes. -/
theorem word8_testBit {b0 b1 b2 b3 b4 b5 b6 b7 : Nat}
    (h0 : b0 < 256) (h1 : b1 < 256) (h2 : b2 < 256) (h3 : b3 < 256)
    (h4 : b4 < 256) (h5 : b5 < 256) (h6 : b6 < 256) (h7 : b7 < 256)
    {q : Nat} (hq : q < 64) :
    (b0 <<< 56 ||| b1 <<< 48 ||| b2 <<< 40 ||| b3 <<< 32 |||
      b4 <<< 24 ||| b5 <<< 16 ||| b6 <<< 8 ||| b7).testBit q =
    bitAt [b0, b1, b2, b3, b4, b5, b6, b7] (63 - q) := by
  obtain ⟨a, c, hc, rfl⟩ : ∃ a c, c < 8 ∧ q = 8 * a + c :=
    ⟨q / 8, q % 8, by omega, by omega⟩
  have ha : a < 8 := by omega
  rw [show 63 - (8 * a + c) = 8 * (7 - a) + (7 - c) by omega,
    bitAt_byte _ _ _ (by omega), show 7 - (7 - c) = c by omega]
  simp only [Nat.testBit_or, Nat.testBit_shiftLeft]
  interval_cases a
  · rw [show ([b0, b1, b2, b3, b4, b5, b6, b7].getD (7 - 0) 0) = b7 from rfl,
      decide_eq_false (show ¬(56 ≤ 8 * 0 + c) by omega),
      decide_eq_false (show ¬(48 ≤ 8 * 0 + c) by omega),
      decide_eq_false (show ¬(40 ≤ 8 * 0 + c) by omega),
      decide_eq_false (show ¬(32 ≤ 8 * 0 + c) by omega),
      decide_eq_false (show ¬(24 ≤ 8 * 0 + c) by omega),
      decide_eq_false (show ¬(16 ≤ 8 * 0 + c) by omega),
      decide_eq_false (show ¬(8 ≤ 8 * 0 + c) by omega)]
    simp only [Bool.false_and, Bool.and_false, Bool.true_and, Bool.false_or, Bool.or_false]
    congr 1
    omega
  · rw [show ([b0, b1, b2, b3, b4, b5, b6, b7].getD (7 - 1) 0) = b6 from rfl,
      decide_eq_false (show ¬(56 ≤ 8 * 1 + c) by omega),
      decide_eq_false (show ¬(48 ≤ 8 * 1 + c) by omega),
      decide_eq_false (show ¬(40 ≤ 8 * 1 + c) by omega),
      decide_eq_false (show ¬(32 ≤ 8 * 1 + c) by omega),
      decide_eq_false (show ¬(24 ≤ 8 * 1 + c) by omega),
      decide_eq_false (show ¬(16 ≤ 8 * 1 + c) by omega),
      decide_eq_true (show 8 ≤ 8 * 1 + c by omega),
      testBit_byte_high h7 (show 8 ≤ 8 * 1 + c by omega)]
    simp only [Bool.false_and, Bool.and_false, Bool.true_and, Bool.false_or, Bool.or_false]
    congr 1
    omega
  · rw [show ([b0, b1, b2, b3, b4, b5, b6, b7].getD (7 - 2) 0) = b5 from rfl,
      decide_eq_false (show ¬(56 ≤ 8 * 2 + c) by omega),
      decide_eq_false (show ¬(48 ≤ 8 * 2 + c) by omega),
      decide_eq_false (show ¬(40 ≤ 8 * 2 + c) by omega),
      decide_eq_false (show ¬(32 ≤ 8 * 2 + c) by omega),
      decide_eq_false (show ¬(24 ≤ 8 * 2 + c) by omega),
      decide_eq_true (show 16 ≤ 8 * 2 + c by omega),
      testBit_byte_high h6 (show 8 ≤ 8 * 2 + c - 8 by omega),
      testBit_byte_high h7 (show 8 ≤ 8 * 2 + c by omega)]
    simp only [Bool.false_and, Bool.and_false, Bool.true_and, Bool.false_or, Bool.or_false]
    congr 1
    omega
  · rw [show ([b0, b1, b2, b3, b4, b5, b6, b7].getD (7 - 3) 0) = b4 from rfl,
      decide_eq_false (show ¬(56 ≤ 8 * 3 + c) by omega),
      decide_eq_false (show ¬(48 ≤ 8 * 3 + c) by omega),
      decide_eq_false (show ¬(40 ≤ 8 * 3 + c) by omega),
      decide_eq_false (show ¬(32 ≤ 8 * 3 + c) by omega),
      decide_eq_true (show 24 ≤ 8 * 3 + c by omega),
      testBit_byte_high h5 (show 8 ≤ 8 * 3 + c - 16 by omega),
      testBit_byte_high h6 (show 8 ≤ 8 * 3 + c - 8 by omega),
      testBit_byte_high h7 (show 8 ≤ 8 * 3 + c by omega)]
    simp only [Bool.false_and, Bool.and_false, Bool.true_and, Bool.false_or, Bool.or_false]
    congr 1
    omega
  · rw [show ([b0, b1, b2, b3, b4, b5, b6, b7].getD (7 - 4) 0) = b3 from rfl,
      decide_eq_false (show ¬(56 ≤ 8 * 4 + c) by omega),
      decide_eq_false (show ¬(48 ≤ 8 * 4 + c) by omega),
      decide_eq_false (show ¬(40 ≤ 8 * 4 + c) by omega),
      decide_eq_true (show 32 ≤ 8 * 4 + c by omega),
      testBit_byte_high h4 (show 8 ≤ 8 * 4 + c - 24 by omega),
      testBit_byte_high h5 (show 8 ≤ 8 * 4 + c - 16 by omega),
      testBit_byte_high h6 (show 8 ≤ 8 * 4 + c - 8 by omega),
      testBit_byte_high h7 (show 8 ≤ 8 * 4 + c by omega)]
    simp only [Bool.false_and, Bool.and_false, Bool.true_and, Bool.false_or, Bool.or_false]
    congr 1
    omega
  · rw [show ([b0, b1, b2, b3, b4, b5, b6, b7].getD (7 - 5) 0) = b2 from rfl,
      decide_eq_false (show ¬(56 ≤ 8 * 5 + c) by omega),
      decide_eq_false (show ¬(48 ≤ 8 * 5 + c) by omega),
      decide_eq_true (show 40 ≤ 8 * 5 + c by omega),
      testBit_byte_high h3 (show 8 ≤ 8 * 5 + c - 32 by omega),
      testBit_byte_high h4 (show 8 ≤ 8 * 5 + c - 24 by omega),
      testBit_byte_high h5 (show 8 ≤ 8 * 5 + c - 16 by omega),
      testBit_byte_high h6 (show 8 ≤ 8 * 5 + c - 8 by omega),
      testBit_byte_high h7 (show 8 ≤ 8 * 5 + c by omega)]
    simp only [Bool.false_and, Bool.and_false, Bool.true_and, Bool.false_or, Bool.or_false]
    congr 1
    omega
  · rw [show ([b0, b1, b2, b3, b4, b5, b6, b7].getD (7 - 6) 0) = b1 from rfl,
      decide_eq_false (show ¬(56 ≤ 8 * 6 + c) by omega),
      decide_eq_true (show 48 ≤ 8 * 6 + c by omega),
      testBit_byte_high h2 (show 8 ≤ 8 * 6 + c - 40 by omega),
      testBit_byte_high h3 (show 8 ≤ 8 * 6 + c - 32 by omega),
      testBit_byte_high h4 (show 8 ≤ 8 * 6 + c - 24 by omega),
      testBit_byte_high h5 (show 8 ≤ 8 * 6 + c - 16 by omega),
      testBit_byte_high h6 (show 8 ≤ 8 * 6 + c - 8 by omega),
      testBit_byte_high h7 (show 8 ≤ 8 * 6 + c by omega)]
    simp only [Bool.false_and, Bool.and_false, Bool.true_and, Bool.false_or, Bool.or_false]
    congr 1
    omega
  · rw [show ([b0, b1, b2, b3, b4, b5, b6, b7].getD (7 - 7) 0) = b0 from rfl,
      decide_eq_true (show 56 ≤ 8 * 7 + c by omega),
      testBit_byte_high h1 (show 8 ≤ 8 * 7 + c - 48 by omega),
      testBit_byte_high h2 (show 8 ≤ 8 * 7 + c - 40 by omega),
      testBit_byte_high h3 (show 8 ≤ 8 * 7 + c - 32 by omega),
      testBit_byte_high h4 (show 8 ≤ 8 * 7 + c - 24 by omega),
      testBit_byte_high h5 (show 8 ≤ 8 * 7 + c - 16 by omega),
      testBit_byte_high h6 (show 8 ≤ 8 * 7 + c - 8 by omega),
      testBit_byte_high h7 (show 8 ≤ 8 * 7 + c by omega)]
    simp only [Bool.false_and, Bool.and_false, Bool.true_and, Bool.false_or, Bool.or_false]
    congr 1
    omega

/-- The assembled 64-bit word is a `uint64` value. -/
theorem word8_lt {b0 b1 b2 b3 b4 b5 b6 b7 : Nat}
    (h0 : b0 < 256) (h1 : b1 < 256) (h2 : b2 < 256) (h3 : b3 < 256)
    (h4 : b4 < 256) (h5 : b5 < 256) (h6 : b6 < 256) (h7 : b7 < 256) :
    (b0 <<< 56 ||| b1 <<< 48 ||| b2 <<< 40 ||| b3 <<< 32 |||
      b4 <<< 24 ||| b5 <<< 16 ||| b6 <<< 8 ||| b7) < 2 ^ 64 := by
  have hs : ∀ x s : Nat, x < 256 → s ≤ 56 → x <<< s < 2 ^ 64 := by
    intro x s hx hsle
    rw [Nat.shiftLeft_eq]
    calc x * 2 ^ s < 256 * 2 ^ s :=
          Nat.mul_lt_mul_of_pos_right hx (Nat.pos_pow_of_pos _ (by norm_num))
      _ = 2 ^ (8 + s) := by rw [pow_add]; norm_num
      _ ≤ 2 ^ 64 := Nat.pow_le_pow_right (by norm_num) (by omega)
  exact Nat.or_lt_two_pow
    (Nat.or_lt_two_pow (Nat.or_lt_two_pow (Nat.or_lt_two_pow (Nat.or_lt_two_pow
      (Nat.or_lt_two_pow (Nat.or_lt_two_pow
        (hs _ _ h0 (by norm_num)) (hs _ _ h1 (by norm_num)))
        (hs _ _ h2 (by norm_num))) (hs _ _ h3 (by norm_num)))
        (hs _ _ h4 (by norm_num))) (hs _ _ h5 (by norm_num)))
        (hs _ _ h6 (by norm_num)))
    (lt_of_lt_of_le h7 (by norm_num))

/-- Value-level description of `beGet64`: it returns the slice advanced by
eight bytes, the unchanged offset, and the 64 bits at position `o`. -/
theorem beGet64_val {b : List Nat} {o : Nat} (hok : bytesOK b) (ho : o < 8)
    (hf : o + 64 ≤ 8 * b.length) :
    ∃ w, beGet64 b o = some (b.drop 8, o, w) ∧ w < 2 ^ 64 ∧
      ∀ q, q < 64 → w.testBit q = bitAt b (o + (63 - q)) := by
  obtain ⟨b0, b1, b2, b3, b4, b5, b6, b7, rest, rfl⟩ :
      ∃ b0 b1 b2 b3 b4 b5 b6 b7 rest,
        b = b0 :: b1 :: b2 :: b3 :: b4 :: b5 :: b6 :: b7 :: rest := by
    rcases b with _|⟨b0,_|⟨b1,_|⟨b2,_|⟨b3,_|⟨b4,_|⟨b5,_|⟨b6,_|⟨b7,rest⟩⟩⟩⟩⟩⟩⟩⟩
    all_goals first
      | exact ⟨_, _, _, _, _, _, _, _, _, rfl⟩
      | (exfalso; simp at hf; try omega)
  have h0 : b0 < 256 := hok _ (by simp)
  have h1 : b1 < 256 := hok _ (by simp)
  have h2 : b2 < 256 := hok _ (by simp)
  have h3 : b3 < 256 := hok _ (by simp)
  have h4 : b4 < 256 := hok _ (by simp)
  have h5 : b5 < 256 := hok _ (by simp)
  have h6 : b6 < 256 := hok _ (by simp)
  have h7 : b7 < 256 := hok _ (by simp)
  have hsplit : b0 :: b1 :: b2 :: b3 :: b4 :: b5 :: b6 :: b7 :: rest =
      [b0, b1, b2, b3, b4, b5, b6, b7] ++ rest := rfl
  by_cases ho0 : o = 0
  · subst ho0
    refine ⟨_, rfl, word8_lt h0 h1 h2 h3 h4 h5 h6 h7, ?_⟩
    intro q hq
    rw [word8_testBit h0 h1 h2 h3 h4 h5 h6 h7 hq, hsplit, Nat.zero_add,
      bitAt_append_left rest (by simp; omega)]
  · -- the ninth byte participates
    obtain ⟨b8, rest', rfl⟩ : ∃ b8 rest', rest = b8 :: rest' := by
      rcases rest with _ | ⟨b8, rest'⟩
      · exfalso; simp at hf; omega
      · exact ⟨_, _, rfl⟩
    have h8 : b8 < 256 := hok _ (by simp)
    refine ⟨(((b0 <<< 56 ||| b1 <<< 48 ||| b2 <<< 40 ||| b3 <<< 32 |||
        b4 <<< 24 ||| b5 <<< 16 ||| b6 <<< 8 ||| b7) <<< o) % 2 ^ 64) |||
        b8 >>> (8 - o), ?_, ?_, ?_⟩
    · show beGet64 _ o = _
      simp only [beGet64]
      rw [if_neg ho0]
      simp only [List.getElem?_cons_zero]
      rfl
    · exact Nat.or_lt_two_pow (Nat.mod_lt _ (by norm_num))
        (lt_of_lt_of_le (shr_lt256 _ h8) (by norm_num))
    · intro q hq
      rw [Nat.testBit_or, Nat.testBit_mod_two_pow, Nat.testBit_shiftLeft,
        Nat.testBit_shiftRight]
      by_cases hqo : q < o
      · rw [decide_eq_false (show ¬(o ≤ q) by omega), Bool.false_and, Bool.and_false,
          Bool.false_or, hsplit,
          show o + (63 - q) = 8 * ([b0, b1, b2, b3, b4, b5, b6, b7] : List Nat).length
            + (o - q - 1) by simp; omega,
          bitAt_append_right, bitAt_cons_lt _ (by omega)]
        congr 1
        omega
      · rw [decide_eq_true hq, decide_eq_true (show o ≤ q by omega), Bool.true_and,
          Bool.true_and, testBit_byte_high h8 (by omega), Bool.or_false,
          word8_testBit h0 h1 h2 h3 h4 h5 h6 h7 (show q - o < 64 by omega), hsplit,
          bitAt_append_left (b8 :: rest') (by simp; omega),
          show 63 - (q - o) = o + (63 - q) by omega]

/-- Bitwise view of the 64-bit AND NOT: bits below 64 are the bits of `a`
with the mask's bits cleared. -/
theorem testBit_andNot64 {a m : Nat} (q : Nat) (hq : q < 64) :
    (andNot64 a m).testBit q = (a.testBit q && !(m.testBit q)) := by
  unfold andNot64
  rw [Nat.testBit_and, Nat.testBit_xor, Nat.testBit_two_pow_sub_one]
  simp [hq]

/-- Value-level description of the bit-at-a-time get loop: on success the
accumulator holds the previous accumulator shifted up by `n` with the `n`
field bits appended below. -/
theorem beGetLoop_val (b : List Nat) : ∀ (o n v : Nat) (b' : List Nat) (o' w : Nat),
    o < 8 → v < 2 ^ 64 → bytesOK b → o + n ≤ 8 * b.length →
    beGetLoop b o n v = some (b', o', w) →
    w < 2 ^ 64 ∧ ∀ q, q < 64 →
      w.testBit q = if q < n then bitAt b (o + (n - 1 - q)) else v.testBit (q - n) := by
  induction b with
  | nil =>
    intro o n v b' o' w ho hv hok hf h
    have ho0 : o = 0 := by simp at hf; omega
    have hn0 : n = 0 := by simp at hf; omega
    subst ho0; subst hn0
    rw [beGetLoop, if_neg (by omega), if_pos rfl] at h
    simp only [Option.some.injEq, Prod.mk.injEq] at h
    obtain ⟨rfl, rfl, rfl⟩ := h
    refine ⟨hv, fun q hq => ?_⟩
    rw [if_neg (by omega), Nat.sub_zero]
  | cons b0 rest ih =>
    intro o n v b' o' w ho hv hok hf h
    rw [beGetLoop, if_neg (by omega)] at h
    have hb0 : b0 < 256 := hok _ (by simp)
    have hokr : bytesOK rest := fun x hx => hok x (by simp [hx])
    by_cases hn0 : n = 0
    · subst hn0
      rw [if_pos rfl] at h
      simp only [Option.some.injEq, Prod.mk.injEq] at h
      obtain ⟨rfl, rfl, rfl⟩ := h
      refine ⟨hv, fun q hq => ?_⟩
      rw [if_neg (by omega), Nat.sub_zero]
    · rw [if_neg hn0] at h
      by_cases ho0 : o = 0
      · subst ho0
        by_cases h8 : 8 ≤ n
        · rw [if_pos h8] at h
          have hv' : ((v <<< 8) % 2 ^ 64) ||| b0 < 2 ^ 64 :=
            Nat.or_lt_two_pow (Nat.mod_lt _ (by norm_num)) (by omega)
          obtain ⟨hw, hbit⟩ := ih 0 (n - 8) _ b' o' w (by omega) hv' hokr
            (by simp at hf ⊢; omega) h
          refine ⟨hw, fun q hq => ?_⟩
          rw [hbit q hq]
          by_cases hc1 : q < n - 8
          · rw [if_pos hc1, if_pos (by omega), Nat.zero_add, Nat.zero_add,
              bitAt_cons_ge _ (show 8 ≤ n - 1 - q by omega)]
            congr 1
            omega
          · rw [if_neg hc1]
            by_cases hc2 : q < n
            · rw [if_pos hc2, Nat.zero_add,
                Nat.testBit_or, Nat.testBit_mod_two_pow, Nat.testBit_shiftLeft,
                decide_eq_false (show ¬(8 ≤ q - (n - 8)) by omega)]
              simp only [Bool.false_and, Bool.and_false, Bool.false_or]
              rw [bitAt_cons_lt _ (show n - 1 - q < 8 by omega)]
              congr 1
              omega
            · rw [if_neg hc2,
                Nat.testBit_or, Nat.testBit_mod_two_pow, Nat.testBit_shiftLeft,
                testBit_byte_high hb0 (show 8 ≤ q - (n - 8) by omega), Bool.or_false,
                decide_eq_true (show q - (n - 8) < 64 by omega),
                decide_eq_true (show 8 ≤ q - (n - 8) by omega),
                Bool.true_and, Bool.true_and]
              congr 1
              omega
        · rw [if_neg h8] at h
          simp only [Option.some.injEq, Prod.mk.injEq] at h
          obtain ⟨rfl, rfl, rfl⟩ := h
          refine ⟨Nat.or_lt_two_pow (Nat.mod_lt _ (by norm_num))
            (lt_of_lt_of_le (shr_lt256 _ hb0) (by norm_num)), fun q hq => ?_⟩
          rw [Nat.testBit_or, Nat.testBit_mod_two_pow, Nat.testBit_shiftLeft,
            Nat.testBit_shiftRight]
          by_cases hc : q < n
          · rw [if_pos hc, decide_eq_false (show ¬(n ≤ q) by omega)]
            simp only [Bool.false_and, Bool.and_false, Bool.false_or]
            rw [Nat.zero_add, bitAt_cons_lt _ (show n - 1 - q < 8 by omega)]
            congr 1
            omega
          · rw [if_neg hc, decide_eq_true hq, decide_eq_true (show n ≤ q by omega),
              Bool.true_and, Bool.true_and,
              testBit_byte_high hb0 (show 8 ≤ 8 - n + q by omega), Bool.or_false]
      · rw [if_neg ho0] at h
        by_cases hr8 : 8 - o ≤ n
        · rw [if_pos hr8] at h
          have hv' : ((v <<< (8 - o)) % 2 ^ 64) ||| andNot64 b0 (255 <<< (8 - o)) < 2 ^ 64 :=
            Nat.or_lt_two_pow (Nat.mod_lt _ (by norm_num))
              (lt_of_le_of_lt Nat.and_le_left (by omega))
          obtain ⟨hw, hbit⟩ := ih 0 (n - (8 - o)) _ b' o' w (by omega) hv' hokr
            (by simp at hf ⊢; omega) h
          refine ⟨hw, fun q hq => ?_⟩
          rw [hbit q hq]
          by_cases hc1 : q < n - (8 - o)
          · rw [if_pos hc1, if_pos (by omega),
              bitAt_cons_ge _ (show 8 ≤ o + (n - 1 - q) by omega)]
            congr 1
            omega
          · rw [if_neg hc1]
            by_cases hc2 : q < n
            · rw [if_pos hc2,
                Nat.testBit_or, Nat.testBit_mod_two_pow, Nat.testBit_shiftLeft,
                testBit_andNot64 _ (by omega), Nat.testBit_shiftLeft,
                decide_eq_false (show ¬(8 - o ≤ q - (n - (8 - o))) by omega)]
              simp only [Bool.false_and, Bool.and_false, Bool.false_or, Bool.not_false,
                Bool.and_true]
              rw [bitAt_cons_lt _ (show o + (n - 1 - q) < 8 by omega)]
              congr 1
              omega
            · rw [if_neg hc2,
                Nat.testBit_or, Nat.testBit_mod_two_pow, Nat.testBit_shiftLeft,
                testBit_andNot64 _ (by omega), Nat.testBit_shiftLeft, testBit_255]
              by_cases hq8 : q - (n - (8 - o)) < 8
              · rw [decide_eq_true (show q - (n - (8 - o)) < 64 by omega),
                  decide_eq_true (show 8 - o ≤ q - (n - (8 - o)) by omega),
                  decide_eq_true (show q - (n - (8 - o)) - (8 - o) < 8 by omega)]
                simp only [Bool.true_and, Bool.and_true, Bool.not_true, Bool.and_false,
                  Bool.or_false]
                congr 1
                omega
              · rw [testBit_byte_high hb0 (by omega)]
                simp only [Bool.false_and, Bool.or_false]
                rw [decide_eq_true (show q - (n - (8 - o)) < 64 by omega),
                  decide_eq_true (show 8 - o ≤ q - (n - (8 - o)) by omega),
                  Bool.true_and, Bool.true_and]
                congr 1
                omega
        · rw [if_neg hr8] at h
          simp only [Option.some.injEq, Prod.mk.injEq] at h
          obtain ⟨rfl, rfl, rfl⟩ := h
          refine ⟨Nat.or_lt_two_pow (Nat.mod_lt _ (by norm_num))
            (lt_of_le_of_lt Nat.and_le_left
              (lt_of_lt_of_le (shr_lt256 _ hb0) (by norm_num))), fun q hq => ?_⟩
          rw [Nat.testBit_or, Nat.testBit_mod_two_pow, Nat.testBit_shiftLeft,
            testBit_andNot64 _ hq, Nat.testBit_shiftRight, Nat.testBit_shiftLeft,
            testBit_255]
          by_cases hc : q < n
          · rw [if_pos hc, decide_eq_false (show ¬(n ≤ q) by omega)]
            simp only [Bool.false_and, Bool.and_false, Bool.false_or, Bool.not_false,
              Bool.and_true]
            rw [bitAt_cons_lt _ (show o + (n - 1 - q) < 8 by omega)]
            congr 1
            omega
          · rw [if_neg hc]
            by_cases hq8 : q - n < 8
            · rw [decide_eq_true (show n ≤ q by omega),
                decide_eq_true (show q - n < 8 by omega)]
              simp only [Bool.true_and, Bool.and_true, Bool.not_true, Bool.and_false,
                Bool.or_false]
              rw [decide_eq_true hq]
              simp only [Bool.true_and]
            · rw [testBit_byte_high hb0 (by omega)]
              simp only [Bool.false_and, Bool.or_false]
              rw [decide_eq_true hq, decide_eq_true (show n ≤ q by omega)]
              simp only [Bool.true_and]

/-- Value-level description of `beGet` for a sub-64-bit width. -/
theorem beGet_val {b : List Nat} {o n : Nat} (hok : bytesOK b) (ho : o < 8)
    (hn : n < 64) (hf : o + n ≤ 8 * b.length) :
    ∃ w, beGet b o n = some (b.drop ((o + n) / 8), (o + n) % 8, w) ∧ w < 2 ^ 64 ∧
      ∀ q, q < 64 →
        w.testBit q = (decide (q < n) && bitAt b (o + (n - 1 - q))) := by
  unfold beGet
  rw [if_neg (by omega)]
  obtain ⟨w, hw⟩ := beGetLoop_advance b o n 0 ho hf
  obtain ⟨hwlt, hbits⟩ := beGetLoop_val b o n 0 _ _ _ ho (by norm_num) hok hf hw
  refine ⟨w, hw, hwlt, fun q hq => ?_⟩
  rw [hbits q hq]
  by_cases hqn : q < n
  · rw [if_pos hqn, decide_eq_true hqn, Bool.true_and]
  · rw [if_neg hqn, decide_eq_false hqn, Bool.false_and, Nat.zero_testBit]

/-- Byte-ness extends through a cons. -/
theorem bytesOK_cons {a : Nat} {l : List Nat} (ha : a < 256) (hl : bytesOK l) :
    bytesOK (a :: l) := by
  intro x hx
  rcases List.mem_cons.mp hx with rfl | hx'
  · exact ha
  · exact hl x hx'

/-- The final bit offset returned by the put loop is `(o + n) mod 8`. -/
theorem bePutLoop_offset (b : List Nat) : ∀ (o n v : Nat) (r : List Nat) (e : Nat),
    o < 8 → bePutLoop b o n v = some (r, e) → e = (o + n) % 8 := by
  induction b with
  | nil =>
    intro o n v r e ho h
    rw [bePutLoop, if_neg (by omega)] at h
    by_cases hn : n = 0
    · subst hn
      rw [if_pos rfl] at h
      simp only [Option.some.injEq, Prod.mk.injEq] at h
      obtain ⟨rfl, rfl⟩ := h
      omega
    · rw [if_neg hn] at h
      by_cases ho0 : o = 0
      · subst ho0
        rw [if_pos rfl] at h
        by_cases h8 : 8 ≤ n
        · rw [if_pos h8] at h; simp at h
        · rw [if_neg h8] at h; simp at h
      · rw [if_neg ho0] at h
        by_cases h8 : 8 - o ≤ n
        · rw [if_pos h8] at h; simp at h
        · rw [if_neg h8] at h; simp at h
  | cons b0 rest ih =>
    intro o n v r e ho h
    rw [bePutLoop, if_neg (by omega)] at h
    by_cases hn : n = 0
    · subst hn
      rw [if_pos rfl] at h
      simp only [Option.some.injEq, Prod.mk.injEq] at h
      obtain ⟨rfl, rfl⟩ := h
      omega
    · rw [if_neg hn] at h
      by_cases ho0 : o = 0
      · subst ho0
        rw [if_pos rfl] at h
        by_cases h8 : 8 ≤ n
        · rw [if_pos h8] at h
          rcases hrec : bePutLoop rest 0 (n - 8) v with _ | p
          · rw [hrec] at h; simp at h
          · rw [hrec] at h
            simp only [Option.map_some', Option.some.injEq, Prod.mk.injEq] at h
            obtain ⟨-, rfl⟩ := h
            have hoff := ih 0 (n - 8) v p.1 p.2 (by omega) (by rw [hrec])
            omega
        · rw [if_neg h8] at h
          simp only [Option.some.injEq, Prod.mk.injEq] at h
          obtain ⟨-, rfl⟩ := h
          omega
      · rw [if_neg ho0] at h
        by_cases h8 : 8 - o ≤ n
        · rw [if_pos h8] at h
          rcases hrec : bePutLoop rest 0 (n - (8 - o)) v with _ | p
          · rw [hrec] at h; simp at h
          · rw [hrec] at h
            simp only [Option.map_some', Option.some.injEq, Prod.mk.injEq] at h
            obtain ⟨-, rfl⟩ := h
            have hoff := ih 0 (n - (8 - o)) v p.1 p.2 (by omega) (by rw [hrec])
            omega
        · rw [if_neg h8] at h
          simp only [Option.some.injEq, Prod.mk.injEq] at h
          obtain ⟨-, rfl⟩ := h
          omega

/-- The put loop preserves byte-ness of the destination. -/
theorem bePutLoop_bytesOK (b : List Nat) : ∀ (o n v : Nat) (r : List Nat) (e : Nat),
    bytesOK b → bePutLoop b o n v = some (r, e) → bytesOK r := by
  induction b with
  | nil =>
    intro o n v r e hok h
    rw [bePutLoop] at h
    by_cases ho8 : 8 ≤ o
    · rw [if_pos ho8] at h; simp at h
    · rw [if_neg ho8] at h
      by_cases hn : n = 0
      · subst hn
        rw [if_pos rfl] at h
        simp only [Option.some.injEq, Prod.mk.injEq] at h
        obtain ⟨rfl, rfl⟩ := h
        exact hok
      · rw [if_neg hn] at h
        by_cases ho0 : o = 0
        · subst ho0
          rw [if_pos rfl] at h
          by_cases h8 : 8 ≤ n
          · rw [if_pos h8] at h; simp at h
          · rw [if_neg h8] at h; simp at h
        · rw [if_neg ho0] at h
          by_cases h8 : 8 - o ≤ n
          · rw [if_pos h8] at h; simp at h
          · rw [if_neg h8] at h; simp at h
  | cons b0 rest ih =>
    intro o n v r e hok h
    have hb0 : b0 < 256 := hok _ (by simp)
    have hokr : bytesOK rest := fun x hx => hok x (by simp [hx])
    rw [bePutLoop] at h
    by_cases ho8 : 8 ≤ o
    · rw [if_pos ho8] at h; simp at h
    · rw [if_neg ho8] at h
      by_cases hn : n = 0
      · subst hn
        rw [if_pos rfl] at h
        simp only [Option.some.injEq, Prod.mk.injEq] at h
        obtain ⟨rfl, rfl⟩ := h
        exact hok
      · rw [if_neg hn] at h
        by_cases ho0 : o = 0
        · subst ho0
          rw [if_pos rfl] at h
          by_cases h8 : 8 ≤ n
          · rw [if_pos h8] at h
            rcases hrec : bePutLoop rest 0 (n - 8) v with _ | p
            · rw [hrec] at h; simp at h
            · rw [hrec] at h
              simp only [Option.map_some', Option.some.injEq, Prod.mk.injEq] at h
              obtain ⟨rfl, -⟩ := h
              exact bytesOK_cons (Nat.mod_lt _ (by norm_num))
                (ih 0 (n - 8) v p.1 p.2 hokr (by rw [hrec]))
          · rw [if_neg h8] at h
            simp only [Option.some.injEq, Prod.mk.injEq] at h
            obtain ⟨rfl, -⟩ := h
            exact bytesOK_cons (lt256_or (shl8_lt _ _)
              (lt256_and_right _ (shr_lt256 _ (by norm_num)))) hokr
        · rw [if_neg ho0] at h
          by_cases h8 : 8 - o ≤ n
          · rw [if_pos h8] at h
            rcases hrec : bePutLoop rest 0 (n - (8 - o)) v with _ | p
            · rw [hrec] at h; simp at h
            · rw [hrec] at h
              simp only [Option.map_some', Option.some.injEq, Prod.mk.injEq] at h
              obtain ⟨rfl, -⟩ := h
              exact bytesOK_cons (lt256_or (andNot8_lt _ hb0)
                (lt256_and_left _ (Nat.mod_lt _ (by norm_num))))
                (ih 0 (n - (8 - o)) v p.1 p.2 hokr (by rw [hrec]))
          · rw [if_neg h8] at h
            simp only [Option.some.injEq, Prod.mk.injEq] at h
            obtain ⟨rfl, -⟩ := h
            exact bytesOK_cons (lt256_or (andNot8_lt _ hb0)
              (lt256_and_left _ (shl8_lt _ _))) hokr

/-- `bePut64` preserves byte-ness of the destination. -/
theorem bePut64_bytesOK {b : List Nat} {o v : Nat} {r : List Nat}
    (hok : bytesOK b) (h : bePut64 b o v = some r) : bytesOK r := by
  unfold bePut64 at h
  by_cases ho0 : o = 0
  · rw [if_pos ho0] at h
    rcases b with _|⟨b0,_|⟨b1,_|⟨b2,_|⟨b3,_|⟨b4,_|⟨b5,_|⟨b6,_|⟨b7,rest⟩⟩⟩⟩⟩⟩⟩⟩
    all_goals try (exfalso; simp at h; done)
    have hokr : bytesOK rest := fun x hx => hok x (by simp [hx])
    simp only [Option.some.injEq] at h
    subst h
    refine bytesOK_cons (Nat.mod_lt _ (by norm_num)) (bytesOK_cons (Nat.mod_lt _ (by norm_num))
      (bytesOK_cons (Nat.mod_lt _ (by norm_num)) (bytesOK_cons (Nat.mod_lt _ (by norm_num))
      (bytesOK_cons (Nat.mod_lt _ (by norm_num)) (bytesOK_cons (Nat.mod_lt _ (by norm_num))
      (bytesOK_cons (Nat.mod_lt _ (by norm_num)) (bytesOK_cons (Nat.mod_lt _ (by norm_num))
      hokr)))))))
  · rw [if_neg ho0] at h
    rcases b with _|⟨b0,_|⟨b1,_|⟨b2,_|⟨b3,_|⟨b4,_|⟨b5,_|⟨b6,_|⟨b7,_|⟨b8,rest⟩⟩⟩⟩⟩⟩⟩⟩⟩
    all_goals try (exfalso; simp at h; done)
    have hb0 : b0 < 256 := hok _ (by simp)
    have hokr : bytesOK rest := fun x hx => hok x (by simp [hx])
    simp only [Option.some.injEq] at h
    subst h
    refine bytesOK_cons (lt256_or (andNot8_lt _ hb0) (Nat.mod_lt _ (by norm_num)))
      (bytesOK_cons (Nat.mod_lt _ (by norm_num)) (bytesOK_cons (Nat.mod_lt _ (by norm_num))
      (bytesOK_cons (Nat.mod_lt _ (by norm_num)) (bytesOK_cons (Nat.mod_lt _ (by norm_num))
      (bytesOK_cons (Nat.mod_lt _ (by norm_num)) (bytesOK_cons (Nat.mod_lt _ (by norm_num))
      (bytesOK_cons (Nat.mod_lt _ (by norm_num))
      (bytesOK_cons (lt256_or (Nat.mod_lt _ (by norm_num))
        (lt256_and_right _ (shr_lt256 _ (by norm_num)))) hokr))))))))

/-- Byte-ness is inherited by a dropped suffix. -/
theorem bytesOK_drop {b : List Nat} (hok : bytesOK b) (k : Nat) :
    bytesOK (b.drop k) := fun x hx => hok x (List.mem_of_mem_drop hx)

/-- Full description of the word-at-a-time copy loop: it copies the `w`
bits at source position `xo` to destination position `zo`, leaves every
other destination bit alone, advances both streams past the copied bits,
and preserves length and byte-ness. -/
theorem beCopyAux_spec : ∀ (k : Nat) (zb xb : List Nat) (zo xo w : Nat),
    zo < 8 → xo < 8 → bytesOK xb → bytesOK zb →
    w < 64 * (k + 1) → 64 * k ≤ w →
    xo + w ≤ 8 * xb.length → zo + w ≤ 8 * zb.length →
    ∃ r, beCopyAux zb xb zo xo w k =
        some (r, (zo + w) / 8, (zo + w) % 8, xb.drop ((xo + w) / 8), (xo + w) % 8) ∧
      r.length = zb.length ∧ bytesOK r ∧
      ∀ t, t < 8 * zb.length →
        bitAt r t = if zo ≤ t ∧ t < zo + w then bitAt xb (xo + (t - zo))
          else bitAt zb t := by
  intro k
  induction k with
  | zero =>
    intro zb xb zo xo w hzo hxo hokx hokz hwk hkw hfx hfz
    obtain ⟨v, hgeq, hvlt, hvbit⟩ := beGet_val hokx hxo (by omega) hfx
    obtain ⟨r, e, hpeq, hlen, hbit⟩ := bePutLoop_spec zb zo w v hzo hfz
    have heo : e = (zo + w) % 8 := bePutLoop_offset zb zo w v r e hzo hpeq
    refine ⟨r, ?_, hlen, bePutLoop_bytesOK zb zo w v r e hokz hpeq, ?_⟩
    · show (beGet xb xo w).bind _ = _
      rw [hgeq]
      simp only [Option.some_bind]
      rw [bePut, if_neg (by omega), hpeq, heo]
      rfl
    · intro t ht
      rw [hbit t ht]
      by_cases hc : zo ≤ t ∧ t < zo + w
      · rw [if_pos hc, if_pos hc, hvbit _ (by omega),
          decide_eq_true (show w - 1 - (t - zo) < w by omega), Bool.true_and]
        congr 1
        omega
      · rw [if_neg hc, if_neg hc]
  | succ k ih =>
    intro zb xb zo xo w hzo hxo hokx hokz hwk hkw hfx hfz
    obtain ⟨v, hgeq, hvlt, hvbit⟩ := beGet64_val hokx hxo (by omega)
    obtain ⟨z1, hpeq, hz1len, hz1bit⟩ := bePut64_spec zb zo v hzo hvlt (by omega)
    have hz1ok : bytesOK z1 := bePut64_bytesOK hokz hpeq
    obtain ⟨rc, hreq, hrclen, hrcok, hrcbit⟩ := ih (z1.drop 8) (xb.drop 8) zo xo (w - 64)
      hzo hxo (bytesOK_drop hokx 8) (bytesOK_drop hz1ok 8)
      (by omega) (by omega)
      (by rw [List.length_drop]; omega)
      (by rw [List.length_drop]; omega)
    have htake : (z1.take 8).length = 8 := by
      rw [List.length_take]
      omega
    refine ⟨z1.take 8 ++ rc, ?_, ?_, ?_, ?_⟩
    · show (beGet64 xb xo).bind _ = _
      have he1 : 8 + (zo + (w - 64)) / 8 = (zo + w) / 8 := by omega
      have he2 : (zo + (w - 64)) % 8 = (zo + w) % 8 := by omega
      have he3 : (xb.drop 8).drop ((xo + (w - 64)) / 8) = xb.drop ((xo + w) / 8) := by
        rw [List.drop_drop]
        congr 1
        omega
      have he4 : (xo + (w - 64)) % 8 = (xo + w) % 8 := by omega
      rw [hgeq]
      simp only [Option.some_bind]
      rw [hpeq]
      simp only [Option.some_bind]
      rw [hreq]
      simp only [Option.map_some']
      rw [he1, he2, he3, he4]
    · rw [List.length_append, htake, hrclen, List.length_drop]
      omega
    · intro x hx
      rcases List.mem_append.mp hx with hx' | hx'
      · exact hz1ok x (List.mem_of_mem_take hx')
      · exact hrcok x hx'
    · intro t ht
      by_cases ht64 : t < 64
      · rw [bitAt_append_left rc (by rw [htake]; omega), bitAt_take _ (by omega),
          hz1bit t (by omega)]
        by_cases hc : zo ≤ t
        · rw [if_pos ⟨hc, by omega⟩, if_pos ⟨hc, by omega⟩, hvbit _ (by omega)]
          congr 1
          omega
        · rw [if_neg (by omega), if_neg (by omega)]
      · rw [show t = 8 * (z1.take 8).length + (t - 64) by rw [htake]; omega,
          bitAt_append_right, hrcbit (t - 64) (by rw [List.length_drop, hz1len]; omega)]
        rw [show 8 * (z1.take 8).length + (t - 64) = t by rw [htake]; omega]
        by_cases hc2 : zo ≤ t - 64 ∧ t - 64 < zo + (w - 64)
        · rw [if_pos hc2, if_pos (show zo ≤ t ∧ t < zo + w by omega), bitAt_drop,
            show 8 * 8 + (xo + (t - 64 - zo)) = xo + (t - zo) by omega]
        · rw [if_neg hc2, bitAt_drop,
            show 8 * 8 + (t - 64) = t by omega, hz1bit t ht]
          by_cases hc3 : zo ≤ t ∧ t < zo + 64
          · rw [if_pos hc3, if_pos (show zo ≤ t ∧ t < zo + w by omega),
              hvbit _ (by omega)]
            congr 1
            omega
          · rw [if_neg hc3, if_neg (show ¬(zo ≤ t ∧ t < zo + w) by omega)]

/-- `beCopy` specification: the public wrapper with `k = w / 64`. -/
theorem beCopy_spec {zb xb : List Nat} {zo xo w : Nat}
    (hzo : zo < 8) (hxo : xo < 8) (hokx : bytesOK xb) (hokz : bytesOK zb)
    (hfx : xo + w ≤ 8 * xb.length) (hfz : zo + w ≤ 8 * zb.length) :
    ∃ r, beCopy zb xb zo xo w =
        some (r, (zo + w) / 8, (zo + w) % 8, xb.drop ((xo + w) / 8), (xo + w) % 8) ∧
      r.length = zb.length ∧ bytesOK r ∧
      ∀ t, t < 8 * zb.length →
        bitAt r t = if zo ≤ t ∧ t < zo + w then bitAt xb (xo + (t - zo))
          else bitAt zb t :=
  beCopyAux_spec (w / 64) zb xb zo xo w hzo hxo hokx hokz
    (by omega) (by omega) hfx hfz

/-- A zero-filled buffer is byte-valued. -/
theorem bytesOK_replicate (n : Nat) : bytesOK (List.replicate n 0) := by
  intro v hv
  rw [List.eq_of_mem_replicate hv]
  norm_num

/-- The reduced rotation amount `(rot tmod M, made nonnegative)` is below
`M` and congruent to `rot` modulo `M`. -/
theorem rotN_facts (rot : Int) {M : Nat} (hM : 0 < M) :
    (if Int.tmod rot (M : Int) < 0 then Int.tmod rot (M : Int) + (M : Int)
      else Int.tmod rot (M : Int)).toNat < M ∧
    (((if Int.tmod rot (M : Int) < 0 then Int.tmod rot (M : Int) + (M : Int)
      else Int.tmod rot (M : Int)).toNat : Nat) : Int) % (M : Int)
        = rot % (M : Int) := by
  have hMI : (0 : Int) < (M : Int) := by exact_mod_cast hM
  have htm : Int.tmod rot (M : Int) % (M : Int) = rot % (M : Int) := by
    rw [Int.tmod_def]
    have h : rot - (M : Int) * rot.tdiv (M : Int) =
        rot + (M : Int) * (-rot.tdiv (M : Int)) := by ring
    rw [h, Int.add_mul_emod_self_left]
  have hbounds : -(M : Int) < Int.tmod rot (M : Int) ∧
      Int.tmod rot (M : Int) < (M : Int) := by
    by_cases hneg : rot < 0
    · obtain ⟨h1, h2⟩ := tmod_bounds hMI hneg
      constructor <;> omega
    · have h0 : (0 : Int) ≤ rot := by omega
      have he := Int.tmod_eq_emod h0 (le_of_lt hMI)
      have h1 : 0 ≤ rot % (M : Int) := Int.emod_nonneg _ (by omega)
      have h2 : rot % (M : Int) < (M : Int) := Int.emod_lt_of_pos _ hMI
      constructor <;> omega
  have hnonneg : 0 ≤ (if Int.tmod rot (M : Int) < 0 then
      Int.tmod rot (M : Int) + (M : Int) else Int.tmod rot (M : Int)) := by
    obtain ⟨h1, h2⟩ := hbounds
    split <;> omega
  have hlt : (if Int.tmod rot (M : Int) < 0 then
      Int.tmod rot (M : Int) + (M : Int) else Int.tmod rot (M : Int)) < (M : Int) := by
    obtain ⟨h1, h2⟩ := hbounds
    split <;> omega
  constructor
  · exact (Int.toNat_lt hnonneg).mpr hlt
  · rw [Int.toNat_of_nonneg hnonneg]
    split
    · rw [show Int.tmod rot (M : Int) + (M : Int) =
        Int.tmod rot (M : Int) + (M : Int) * 1 by ring,
        Int.add_mul_emod_self_left, htm]
    · exact htm

/-- Whole-buffer `BigEndianOrder.RotateLeft` into a fresh destination: it
succeeds, preserves length and byte-ness, and bit `t` of the result is bit
`(t + rot) mod 8l` of the source. -/
theorem orderRotate_spec (x : List Nat) (rot : Int) (hok : bytesOK x) :
    ∃ r, BigEndianOrder.RotateLeft [] x rot = some r ∧ r.length = x.length ∧
      bytesOK r ∧
      ∀ t, t < 8 * x.length →
        bitAt r t =
          bitAt x ((t + (rot % ((8 * x.length : Nat) : Int)).toNat) % (8 * x.length)) := by
  by_cases hl0 : x.length = 0
  · have hx : x = [] := List.length_eq_zero.mp hl0
    subst hx
    refine ⟨[], ?_, rfl, fun v hv => absurd hv (by simp), fun t ht => by simp at ht⟩
    simp [BigEndianOrder.RotateLeft, Grow]
  · have hl : 0 < x.length := by omega
    have hM : 0 < 8 * x.length := by omega
    have hdrop : List.drop x.length (Grow [] x.length) = [] := by
      rw [Grow_nil, List.drop_replicate, Nat.sub_self]
      rfl
    simp only [BigEndianOrder.RotateLeft]
    by_cases hr0 : rot = 0
    · rw [if_pos (Or.inl hr0), hdrop, List.append_nil]
      refine ⟨x, rfl, rfl, hok, fun t ht => ?_⟩
      subst hr0
      rw [Int.zero_emod, Int.toNat_zero, Nat.add_zero, Nat.mod_eq_of_lt ht]
    · rw [if_neg (not_or.mpr ⟨hr0, hl0⟩)]
      by_cases hsl : 0 < rot ∧ rot ≤ 8
      · rw [if_pos hsl, hdrop, List.append_nil]
        obtain ⟨hlen, hokr, hbit⟩ := smallLeft_bits hok
          (m := rot.toNat) (by omega) (by omega) hl
        refine ⟨_, rfl, hlen, hokr, fun t ht => ?_⟩
        rw [hbit t ht]
        refine shift_congr (toNat_emod_congr hM ?_) t
        rw [Int.toNat_of_nonneg (by omega : (0 : Int) ≤ rot)]
      · rw [if_neg hsl]
        by_cases hsr : rot < 0 ∧ -8 ≤ rot
        · rw [if_pos hsr, hdrop, List.append_nil]
          obtain ⟨hlen, hokr, hbit⟩ := smallRight_bits hok
            (m := (-rot).toNat) (by omega) (by omega) hl
          refine ⟨_, rfl, hlen, hokr, fun t ht => ?_⟩
          rw [hbit t ht]
          refine shift_congr (toNat_emod_congr hM ?_) t
          have hmM : (-rot).toNat ≤ 8 * x.length := by omega
          rw [Nat.cast_sub hmM, Int.toNat_of_nonneg (by omega : (0 : Int) ≤ -rot)]
          have harith : ((8 * x.length : Nat) : Int) - -rot =
              rot + ((8 * x.length : Nat) : Int) * 1 := by ring
          rw [harith, Int.add_mul_emod_self_left]
        · rw [if_neg hsr]
          obtain ⟨hRlt, hRcong⟩ := rotN_facts rot (M := 8 * x.length) hM
          generalize hR : (if Int.tmod rot ((8 * x.length : Nat) : Int) < 0 then
              Int.tmod rot ((8 * x.length : Nat) : Int) + ((8 * x.length : Nat) : Int)
              else Int.tmod rot ((8 * x.length : Nat) : Int)).toNat = R
          rw [hR] at hRlt hRcong
          have hnorm : beNorm x R = some (x.drop (R / 8), R % 8) := by
            unfold beNorm goSlice
            rw [shiftRight3_eq, if_pos (by omega), and7_eq]
            rfl
          rw [hnorm]
          simp only [Option.some_bind]
          have hglen : (Grow [] x.length).length = x.length := by
            rw [Grow_nil, List.length_replicate]
          have hgok : bytesOK (Grow [] x.length) := by
            rw [Grow_nil]
            exact bytesOK_replicate _
          obtain ⟨z1, hc1eq, hz1len, hz1ok, hz1bit⟩ :=
            @beCopy_spec (Grow [] x.length) (x.drop (R / 8)) 0
              (R % 8) (8 * x.length - R) (by omega) (by omega)
              (bytesOK_drop hok _) hgok
              (by rw [List.length_drop]; omega) (by rw [hglen]; omega)
          rw [hc1eq]
          simp only [Option.some_bind, Nat.zero_add]
          rw [hglen] at hz1bit
          have hz1l : z1.length = x.length := hz1len.trans hglen
          obtain ⟨z2, hc2eq, hz2len, hz2ok, hz2bit⟩ :=
            @beCopy_spec (z1.drop ((8 * x.length - R) / 8)) x
              ((8 * x.length - R) % 8) 0 R
              (by omega) (by omega) hok (bytesOK_drop hz1ok _)
              (by omega) (by rw [List.length_drop, hz1l]; omega)
          rw [hc2eq]
          simp only [Option.map_some']
          have htakelen : (z1.take ((8 * x.length - R) / 8)).length
              = (8 * x.length - R) / 8 := by
            rw [List.length_take, hz1l]
            omega
          have hz1t : ∀ s, s < 8 * x.length - R →
              bitAt z1 s = bitAt x ((s + R) % (8 * x.length)) := by
            intro s hs
            rw [hz1bit s (by omega), if_pos ⟨Nat.zero_le _, by omega⟩, bitAt_drop,
              show 8 * (R / 8) + (R % 8 + (s - 0)) = s + R by omega,
              Nat.mod_eq_of_lt (show s + R < 8 * x.length by omega)]
          refine ⟨_, rfl, ?_, ?_, ?_⟩
          · rw [List.length_append, htakelen, hz2len, List.length_drop, hz1l]
            omega
          · intro v hv
            rcases List.mem_append.mp hv with hv' | hv'
            · exact hz1ok v (List.mem_of_mem_take hv')
            · exact hz2ok v hv'
          · intro t ht
            by_cases htA : t < 8 * ((8 * x.length - R) / 8)
            · rw [bitAt_append_left z2 (by rw [htakelen]; omega),
                bitAt_take _ (by omega), hz1t t (by omega)]
              exact shift_congr (toNat_emod_congr hM hRcong) t
            · rw [show t = 8 * (z1.take ((8 * x.length - R) / 8)).length +
                  (t - 8 * ((8 * x.length - R) / 8)) by rw [htakelen]; omega,
                bitAt_append_right,
                hz2bit (t - 8 * ((8 * x.length - R) / 8))
                  (by rw [List.length_drop, hz1l]; omega),
                show 8 * (z1.take ((8 * x.length - R) / 8)).length +
                  (t - 8 * ((8 * x.length - R) / 8)) = t by rw [htakelen]; omega]
              by_cases hc2 : t < 8 * x.length - R
              · rw [if_neg (by omega), bitAt_drop,
                  show 8 * ((8 * x.length - R) / 8) +
                    (t - 8 * ((8 * x.length - R) / 8)) = t by omega,
                  hz1t t hc2]
                exact shift_congr (toNat_emod_congr hM hRcong) t
              · rw [if_pos ⟨by omega, by omega⟩,
                  show 0 + (t - 8 * ((8 * x.length - R) / 8) -
                    (8 * x.length - R) % 8) = t - (8 * x.length - R) by omega,
                  show t - (8 * x.length - R) = (t + R) % (8 * x.length) by
                    rw [Nat.mod_eq_sub_mod (by omega),
                      Nat.mod_eq_of_lt (by omega)]
                    omega]
                exact shift_congr (toNat_emod_congr hM hRcong) t

/-- C8: the two whole-buffer rotation implementations agree: for every
byte-valued source and every integer rotation amount, with a fresh
non-aliasing destination, `BigEndianBits.RotateLeft` (one `extract2` call
on the self-concatenated source) and `BigEndianOrder.RotateLeft` (two
word-at-a-time `beCopy` passes) produce the same destination contents. -/
theorem C8_rotate_equiv (src : List Nat) (n : Int) (hok : bytesOK src) :
    ∃ r, BigEndianBits.RotateLeft [] src n = some r ∧
      BigEndianOrder.RotateLeft [] src n = some r := by
  obtain ⟨r1, h1, hlen1, hok1, hbit1⟩ := rotateBits_spec src n hok
  obtain ⟨r2, h2, hlen2, hok2, hbit2⟩ := orderRotate_spec src n hok
  have h21 : r2 = r1 := by
    apply buffer_ext hok2 hok1 (by omega)
    intro t ht
    rw [hbit2 t (by omega), hbit1 t (by omega)]
  rw [h21] at h2
  exact ⟨r1, h1, h2⟩

/-- Closed instance of `C8_rotate_equiv` at a concrete buffer and a large
rotation, exercising the `extract2` path on one side and the double
`beCopy` path on the other. -/
theorem C8_witness :
    ∃ r, BigEndianBits.RotateLeft [] [171, 205, 239] 21 = some r ∧
      BigEndianOrder.RotateLeft [] [171, 205, 239] 21 = some r :=
  C8_rotate_equiv [171, 205, 239] 21 (by decide)
